import Mathlib

/-!
Verification of the CSP solver in `csp.py` (class `CSP` with `ac_3`, `revise`,
`neighbors`, `backtracking_search`, and the module-level helper `alldiff`).

Shallow embedding conventions:
* Variables and values are parameters `V`, `A` with decidable equality; the
  source uses strings / arbitrary hashable values and only ever compares them
  for equality.
* A Python `set` is modelled as a `List` considered up to membership (the
  source iterates sets in an unspecified order and only tests membership,
  adds, and removes).
* The mutable `self.domains` dict is modelled, after construction, as a total
  function `V → List A`; in-place mutation (`difference_update`) becomes
  returning the updated function.  The construction-time dict (where a missing
  key raises `KeyError`) is modelled separately as an association list for the
  constructor `CSP_init`.
* `self.binary_constraints` is a dict keyed by variable pairs; it is modelled
  as an association list with first-match lookup `cget`.  The source can write
  the same key twice (duplicate edges), but it always recomputes the identical
  set, so first-match lookup agrees with the Python dict.
* Python's `queue.pop()` removes the LAST element of the list.  The worklist
  is therefore represented reversed: the head of the Lean list is the element
  Python would pop next, and `queue.append(x)` becomes `x :: queue`.
-/

set_option linter.unusedSectionVars false

variable {V : Type} {A : Type} [DecidableEq V] [DecidableEq A]

/-- The state held by a constructed `CSP` object: `self.variables`,
`self.domains` and `self.binary_constraints`. -/
structure CSPState (V A : Type) where
  vars : List V          -- `self.variables` (the name `variables` is reserved in Lean)
  domains : V → List A
  binary_constraints : List ((V × V) × List (A × A))

/-- Dict lookup `self.binary_constraints.get(k)`. -/
def cget (cons : List ((V × V) × List (A × A))) (k : V × V) : Option (List (A × A)) :=
  (cons.find? (fun e => decide (e.1 = k))).map (fun e => e.2)

/-- Python's `x or y` applied to `dict.get` results: an *empty* set is falsy,
so `get((Xi,Xj)) or get((Xj,Xi))` falls through to the second lookup both when
the first key is absent and when its set is empty. -/
def pyOr (a b : Option (List (A × A))) : Option (List (A × A)) :=
  match a with
  | some l => if l.isEmpty then b else some l
  | none => b

/-- The compatibility set built in `CSP.__init__` for one edge `(u, v)`:
every pair `(value1, value2)` with `value1 ∈ domain(u)`, `value2 ∈ domain(v)`
and `value1 != value2`, added in both orders (lines 40-44 of `csp.py`). -/
def mustDiffPairs (du dv : List A) : List (A × A) :=
  du.foldr (fun v1 acc =>
    dv.foldr (fun v2 acc2 => if v1 ≠ v2 then (v1, v2) :: (v2, v1) :: acc2 else acc2) acc) []

/-- The `binary_constraints` dict built by `CSP.__init__` from total domains:
one entry per edge, keyed in declared order. -/
def buildConstraints (d : V → List A) (edges : List (V × V)) :
    List ((V × V) × List (A × A)) :=
  edges.map (fun e => ((e.1, e.2), mustDiffPairs (d e.1) (d e.2)))

/-- Embeds `any((x, y) in allowed for y in self.domains.get(Xj))` from `revise`. -/
def hasSupport (allowed : List (A × A)) (dj : List A) (x : A) : Bool :=
  dj.any (fun y => decide ((x, y) ∈ allowed))

/-- Embeds `CSP.revise(Xi, Xj)`: returns the `revised` flag together with the
(possibly) updated domains.  `to_remove` collects the values of `Xi` with no
support in `Xj`; `difference_update` keeps exactly the supported values, which
is written here as a positive filter. -/
def revise (cons : List ((V × V) × List (A × A))) (d : V → List A) (Xi Xj : V) :
    Bool × (V → List A) :=
  match pyOr (cget cons (Xi, Xj)) (cget cons (Xj, Xi)) with
  | none => (false, d)
  | some allowed =>
    let toRemove := (d Xi).filter (fun x => !hasSupport allowed (d Xj) x)
    if toRemove.isEmpty then (false, d)
    else (true, fun v => if v = Xi then (d Xi).filter (fun x => hasSupport allowed (d Xj) x)
                         else d v)

/-- Embeds `CSP.neighbors(x)`: every variable sharing a binary-constraint key with
`x`.  The source builds a Python set in one pass over the keys; here the set
is a duplicate-free list. -/
def neighbors (cons : List ((V × V) × List (A × A))) (x : V) : List V :=
  cons.foldl (fun nbrs e =>
    let nbrs2 := if e.1.1 = x then nbrs.insert e.1.2 else nbrs
    if e.1.2 = x then nbrs2.insert e.1.1 else nbrs2) []

/-- The initial worklist of `ac_3`: for each key `(u, v)` the source appends
`(u, v)` then `(v, u)`.  In the reversed representation (head = next popped)
each append becomes a cons. -/
def initQueue (cons : List ((V × V) × List (A × A))) : List (V × V) :=
  cons.foldl (fun q e => (e.1.2, e.1.1) :: (e.1.1, e.1.2) :: q) []

/-- Variables occurring in some constraint key (used only as the termination
measure of the worklist loop). -/
def consVars (cons : List ((V × V) × List (A × A))) : List V :=
  cons.foldl (fun acc e => (acc.insert e.1.1).insert e.1.2) []

/-- Total size of the domains of the given variables (termination measure). -/
def sizeOn (vs : List V) (d : V → List A) : Nat :=
  (vs.map (fun v => (d v).length)).sum

theorem revise_fst_false {cons : List ((V × V) × List (A × A))} {d : V → List A} {Xi Xj : V}
    (h : (revise cons d Xi Xj).1 = false) : (revise cons d Xi Xj).2 = d := by
  unfold revise at *
  cases hp : pyOr (cget cons (Xi, Xj)) (cget cons (Xj, Xi)) with
  | none => simp [hp]
  | some allowed =>
    simp only [hp] at h ⊢
    by_cases he : ((d Xi).filter (fun x => !hasSupport allowed (d Xj) x)).isEmpty
    · simp [he]
    · simp [he] at h

theorem pyOr_eq_some {a b : Option (List (A × A))} {c : List (A × A)}
    (h : pyOr a b = some c) : a = some c ∨ b = some c := by
  unfold pyOr at h
  cases a with
  | none => exact Or.inr h
  | some l =>
    by_cases hl : l.isEmpty
    · simp [hl] at h; exact Or.inr h
    · simp [hl] at h; exact Or.inl (by simp [h])

theorem cget_eq_some_mem {cons : List ((V × V) × List (A × A))} {k : V × V}
    {c : List (A × A)} (h : cget cons k = some c) : ((k, c)) ∈ cons := by
  unfold cget at h
  cases hf : cons.find? (fun e => decide (e.1 = k)) with
  | none => simp [hf] at h
  | some e =>
    simp [hf] at h
    have hmem := List.mem_of_find?_eq_some hf
    have hk := List.find?_some hf
    simp at hk
    have : e = (k, c) := by
      cases e with
      | mk e1 e2 => simp_all
    rw [this] at hmem
    exact hmem

theorem mem_consVars_aux (cons : List ((V × V) × List (A × A))) (acc : List V) (x : V) :
    x ∈ cons.foldl (fun acc e => (acc.insert e.1.1).insert e.1.2) acc ↔
      x ∈ acc ∨ ∃ e ∈ cons, e.1.1 = x ∨ e.1.2 = x := by
  induction cons generalizing acc with
  | nil => simp
  | cons hd tl ih =>
    rw [List.foldl_cons, ih]
    simp only [List.mem_insert_iff, List.mem_cons]
    constructor
    · rintro ((rfl | rfl | h) | ⟨e, he, h⟩)
      · exact Or.inr ⟨hd, Or.inl rfl, Or.inr rfl⟩
      · exact Or.inr ⟨hd, Or.inl rfl, Or.inl rfl⟩
      · exact Or.inl h
      · exact Or.inr ⟨e, Or.inr he, h⟩
    · rintro (h | ⟨e, (rfl | he), h⟩)
      · exact Or.inl (Or.inr (Or.inr h))
      · rcases h with h | h
        · exact Or.inl (Or.inr (Or.inl h.symm))
        · exact Or.inl (Or.inl h.symm)
      · exact Or.inr ⟨e, he, h⟩

theorem mem_consVars {cons : List ((V × V) × List (A × A))} {x : V} :
    x ∈ consVars cons ↔ ∃ e ∈ cons, e.1.1 = x ∨ e.1.2 = x := by
  unfold consVars
  rw [mem_consVars_aux]
  simp

theorem length_filter_lt_of_mem_not {α : Type} {l : List α} {p : α → Bool} {x : α}
    (hx : x ∈ l) (hpx : p x = false) : (l.filter p).length < l.length := by
  induction l with
  | nil => simp at hx
  | cons hd tl ih =>
    rcases List.mem_cons.mp hx with rfl | hx'
    · simp only [List.filter_cons, hpx]
      simp only [List.length_cons, Bool.false_eq_true, if_false]
      exact Nat.lt_succ_of_le (List.length_filter_le _ _)
    · by_cases hp : p hd = true
      · simp only [List.filter_cons, hp, if_true, List.length_cons]
        exact Nat.succ_lt_succ (ih hx')
      · simp only [List.filter_cons, hp, if_false, List.length_cons]
        exact Nat.lt_succ_of_lt (ih hx')

theorem sizeOn_update_lt {vs : List V} {d : V → List A} {Xi : V} {l : List A}
    (hXi : Xi ∈ vs) (hlt : l.length < (d Xi).length) :
    sizeOn vs (fun v => if v = Xi then l else d v) < sizeOn vs d := by
  unfold sizeOn
  apply List.sum_lt_sum
  · intro i _
    show (if i = Xi then l else d i).length ≤ (d i).length
    by_cases hv : i = Xi
    · subst hv; rw [if_pos rfl]; exact Nat.le_of_lt hlt
    · rw [if_neg hv]
  · refine ⟨Xi, hXi, ?_⟩
    show (if Xi = Xi then l else d Xi).length < (d Xi).length
    rw [if_pos rfl]; exact hlt

theorem revise_true_size {cons : List ((V × V) × List (A × A))} {d : V → List A} {Xi Xj : V}
    (h : (revise cons d Xi Xj).1 = true) :
    sizeOn (consVars cons) ((revise cons d Xi Xj).2) < sizeOn (consVars cons) d := by
  unfold revise at *
  cases hp : pyOr (cget cons (Xi, Xj)) (cget cons (Xj, Xi)) with
  | none => simp [hp] at h
  | some allowed =>
    simp only [hp] at h ⊢
    by_cases he : ((d Xi).filter (fun x => !hasSupport allowed (d Xj) x)).isEmpty
    · simp [he] at h
    · simp only [he, if_false]
      have hXi : Xi ∈ consVars cons := by
        rcases pyOr_eq_some hp with hg | hg
        · exact mem_consVars.mpr ⟨((Xi, Xj), allowed), cget_eq_some_mem hg, Or.inl rfl⟩
        · exact mem_consVars.mpr ⟨((Xj, Xi), allowed), cget_eq_some_mem hg, Or.inr rfl⟩
      have hne : (d Xi).filter (fun x => !hasSupport allowed (d Xj) x) ≠ [] := by
        intro hnil
        rw [hnil] at he
        simp at he
      rcases List.exists_mem_of_ne_nil _ hne with ⟨x, hxmem⟩
      rcases List.mem_filter.mp hxmem with ⟨hx1, hx2⟩
      have hx2' : hasSupport allowed (d Xj) x = false := by simpa using hx2
      exact sizeOn_update_lt hXi (length_filter_lt_of_mem_not hx1 hx2')

/-- Embeds the worklist loop of `CSP.ac_3()`.  Returns the flag together with the final
domains (the source mutates `self.domains` in place).  The queue is in the
reversed representation described above.  `nbrs.remove(Xj)` is `erase`; when a
revision happened the key `(Xi,Xj)` or `(Xj,Xi)` exists, so `Xj` is a neighbor
of `Xi` and Python's `set.remove` cannot raise. -/
def ac3Loop (cons : List ((V × V) × List (A × A))) (d : V → List A) (q : List (V × V)) :
    Bool × (V → List A) :=
  match q with
  | [] => (true, d)
  | (Xi, Xj) :: rest =>
    let r := revise cons d Xi Xj
    if hr : r.1 = true then
      if (r.2 Xi).isEmpty then (false, r.2)
      else ac3Loop cons r.2
        (((neighbors cons Xi).erase Xj).foldl (fun acc Xk => (Xk, Xi) :: acc) rest)
    else ac3Loop cons r.2 rest
termination_by (sizeOn (consVars cons) d, q.length)
decreasing_by
  · apply Prod.Lex.left
    exact revise_true_size hr
  · have hf : (revise cons d Xi Xj).1 = false := by simpa using hr
    rw [revise_fst_false hf]
    apply Prod.Lex.right
    simp

/-- Embeds `CSP.ac_3()`: initializes the worklist from the constraint keys and runs
the loop. -/
def ac_3 (csp : CSPState V A) : Bool × (V → List A) :=
  ac3Loop csp.binary_constraints csp.domains (initQueue csp.binary_constraints)

theorem mem_mustDiffPairs_inner {v1 : A} {dv : List A} {acc : List (A × A)} {p : A × A} :
    p ∈ dv.foldr (fun v2 acc2 => if v1 ≠ v2 then (v1, v2) :: (v2, v1) :: acc2 else acc2) acc ↔
      (∃ v2 ∈ dv, v1 ≠ v2 ∧ (p = (v1, v2) ∨ p = (v2, v1))) ∨ p ∈ acc := by
  induction dv with
  | nil => simp
  | cons h t ih =>
    simp only [List.foldr_cons]
    by_cases hv : v1 ≠ h
    · rw [if_pos hv]
      simp only [List.mem_cons, ih]
      constructor
      · rintro (rfl | rfl | (⟨v2, hv2, hne, hp⟩ | hacc))
        · exact Or.inl ⟨h, Or.inl rfl, hv, Or.inl rfl⟩
        · exact Or.inl ⟨h, Or.inl rfl, hv, Or.inr rfl⟩
        · exact Or.inl ⟨v2, Or.inr hv2, hne, hp⟩
        · exact Or.inr hacc
      · rintro (⟨v2, hv2, hne, hp⟩ | hacc)
        · rcases hv2 with rfl | hv2'
          · rcases hp with rfl | rfl
            · exact Or.inl rfl
            · exact Or.inr (Or.inl rfl)
          · exact Or.inr (Or.inr (Or.inl ⟨v2, hv2', hne, hp⟩))
        · exact Or.inr (Or.inr (Or.inr hacc))
    · rw [if_neg hv]
      push_neg at hv
      subst hv
      rw [ih]
      constructor
      · rintro (⟨v2, hv2, hne, hp⟩ | hacc)
        · exact Or.inl ⟨v2, List.mem_cons_of_mem _ hv2, hne, hp⟩
        · exact Or.inr hacc
      · rintro (⟨v2, hv2, hne, hp⟩ | hacc)
        · rcases List.mem_cons.mp hv2 with rfl | hv2'
          · exact absurd rfl hne
          · exact Or.inl ⟨v2, hv2', hne, hp⟩
        · exact Or.inr hacc

/-- Membership in a constructed compatibility set: exactly the pairs of two
different values, one from each of the two (construction-time) domains, in
either order. -/
theorem mem_mustDiffPairs {du dv : List A} {x y : A} :
    (x, y) ∈ mustDiffPairs du dv ↔
      x ≠ y ∧ ((x ∈ du ∧ y ∈ dv) ∨ (y ∈ du ∧ x ∈ dv)) := by
  unfold mustDiffPairs
  induction du with
  | nil => simp
  | cons h t ih =>
    rw [List.foldr_cons, mem_mustDiffPairs_inner, ih]
    constructor
    · rintro (⟨v2, hv2, hne, hp | hp⟩ | ⟨hxy, hc⟩)
      · rw [Prod.mk.injEq] at hp
        obtain ⟨rfl, rfl⟩ := hp
        exact ⟨hne, Or.inl ⟨List.mem_cons_self _ _, hv2⟩⟩
      · rw [Prod.mk.injEq] at hp
        obtain ⟨rfl, rfl⟩ := hp
        exact ⟨hne.symm, Or.inr ⟨List.mem_cons_self _ _, hv2⟩⟩
      · refine ⟨hxy, ?_⟩
        rcases hc with ⟨hx, hy⟩ | ⟨hy, hx⟩
        · exact Or.inl ⟨List.mem_cons_of_mem _ hx, hy⟩
        · exact Or.inr ⟨List.mem_cons_of_mem _ hy, hx⟩
    · rintro ⟨hxy, ⟨hx, hy⟩ | ⟨hy, hx⟩⟩
      · rcases List.mem_cons.mp hx with rfl | hx'
        · exact Or.inl ⟨y, hy, hxy, Or.inl rfl⟩
        · exact Or.inr ⟨hxy, Or.inl ⟨hx', hy⟩⟩
      · rcases List.mem_cons.mp hy with rfl | hy'
        · exact Or.inl ⟨x, hx, fun hne => hxy hne.symm, Or.inr rfl⟩
        · exact Or.inr ⟨hxy, Or.inr ⟨hy', hx⟩⟩

theorem cget_buildConstraints {d : V → List A} {edges : List (V × V)} {a b : V}
    {c : List (A × A)} (h : cget (buildConstraints d edges) (a, b) = some c) :
    c = mustDiffPairs (d a) (d b) ∧ (a, b) ∈ edges := by
  have hm := cget_eq_some_mem h
  unfold buildConstraints at hm
  rcases List.mem_map.mp hm with ⟨e, he, heq⟩
  rw [Prod.mk.injEq] at heq
  obtain ⟨hk, hc⟩ := heq
  rw [Prod.mk.injEq] at hk
  obtain ⟨h1, h2⟩ := hk
  subst h1; subst h2
  refine ⟨hc.symm, ?_⟩
  have : e = (e.1, e.2) := rfl
  rw [this] at he
  exact he

theorem mem_buildConstraints {d : V → List A} {edges : List (V × V)}
    {en : (V × V) × List (A × A)} (h : en ∈ buildConstraints d edges) :
    en.1 ∈ edges ∧ en.2 = mustDiffPairs (d en.1.1) (d en.1.2) := by
  unfold buildConstraints at h
  rcases List.mem_map.mp h with ⟨e, he, heq⟩
  subst heq
  exact ⟨by simpa using he, rfl⟩

theorem cget_isSome_of_mem {cons : List ((V × V) × List (A × A))} {k : V × V}
    {c : List (A × A)} (h : (k, c) ∈ cons) : (cget cons k).isSome = true := by
  unfold cget
  cases hf : cons.find? (fun e => decide (e.1 = k)) with
  | none =>
    rw [List.find?_eq_none] at hf
    exact absurd (by simp : (decide (((k, c) : (V × V) × List (A × A)).1 = k)) = true)
      (by simpa using hf (k, c) h)
  | some e => simp [hf]

theorem cget_buildConstraints_of_mem_edges {d : V → List A} {edges : List (V × V)}
    {a b : V} (h : (a, b) ∈ edges) :
    cget (buildConstraints d edges) (a, b) = some (mustDiffPairs (d a) (d b)) := by
  have hmem : (((a, b) : V × V), mustDiffPairs (d a) (d b)) ∈ buildConstraints d edges := by
    unfold buildConstraints
    exact List.mem_map.mpr ⟨(a, b), h, rfl⟩
  have hs := cget_isSome_of_mem hmem
  rcases Option.isSome_iff_exists.mp hs with ⟨c, hc⟩
  rw [hc]
  obtain ⟨hcv, _⟩ := cget_buildConstraints hc
  rw [hcv]

/-- Arc `(a, b)` has a stored constraint key in one of the two directions. -/
def keyed (cons : List ((V × V) × List (A × A))) (a b : V) : Prop :=
  (cget cons (a, b)).isSome = true ∨ (cget cons (b, a)).isSome = true

/-- Means `revise` reports no change on the arc `(a, b)` at domains `d`. -/
def noRem (cons : List ((V × V) × List (A × A))) (d : V → List A) (a b : V) : Prop :=
  (revise cons d a b).1 = false

theorem noRem_iff {cons : List ((V × V) × List (A × A))} {d : V → List A} {a b : V} :
    noRem cons d a b ↔
      ∀ allowed, pyOr (cget cons (a, b)) (cget cons (b, a)) = some allowed →
        ∀ x ∈ d a, hasSupport allowed (d b) x = true := by
  unfold noRem revise
  cases hp : pyOr (cget cons (a, b)) (cget cons (b, a)) with
  | none => simp
  | some allowed =>
    simp only
    by_cases he : ((d a).filter (fun x => !hasSupport allowed (d b) x)).isEmpty
    · rw [if_pos he]
      constructor
      · intro _ allowed2 heq x hx
        have hae : allowed = allowed2 := by injection heq
        subst hae
        have hnil : (d a).filter (fun x => !hasSupport allowed (d b) x) = [] :=
          List.isEmpty_iff.mp he
        have := List.filter_eq_nil_iff.mp hnil x hx
        simpa using this
      · intro _; rfl
    · rw [if_neg he]
      constructor
      · intro hch; exact absurd hch (by simp)
      · intro hall
        exfalso
        apply he
        rw [List.isEmpty_iff, List.filter_eq_nil_iff]
        intro x hx
        simp [hall allowed rfl x hx]

theorem noRem_mono {cons : List ((V × V) × List (A × A))} {d d2 : V → List A} {a b : V}
    (hsub : ∀ x ∈ d2 a, x ∈ d a) (hb : d2 b = d b)
    (h : noRem cons d a b) : noRem cons d2 a b := by
  rw [noRem_iff] at *
  intro allowed hp x hx
  have := h allowed hp x (hsub x hx)
  rw [hb]
  exact this

/-- The symmetry of constructed compatibility sets that `revise` relies on:
whatever set the lookup-with-fallback produces for one direction of an arc,
the swapped pair belongs to the set produced for the other direction. -/
def SymCons (cons : List ((V × V) × List (A × A))) : Prop :=
  ∀ a b x y ca cb, pyOr (cget cons (a, b)) (cget cons (b, a)) = some ca →
    pyOr (cget cons (b, a)) (cget cons (a, b)) = some cb →
    (x, y) ∈ ca → (y, x) ∈ cb

theorem mem_mustDiffPairs_swap {du dv : List A} {x y : A}
    (h : (x, y) ∈ mustDiffPairs du dv) : (y, x) ∈ mustDiffPairs du dv := by
  rw [mem_mustDiffPairs] at h ⊢
  obtain ⟨hne, hc⟩ := h
  exact ⟨hne.symm, hc.symm⟩

theorem mem_mustDiffPairs_comm {du dv : List A} {x y : A}
    (h : (x, y) ∈ mustDiffPairs du dv) : (x, y) ∈ mustDiffPairs dv du := by
  rw [mem_mustDiffPairs] at h ⊢
  obtain ⟨hne, hc⟩ := h
  refine ⟨hne, ?_⟩
  rcases hc with ⟨hx, hy⟩ | ⟨hy, hx⟩
  · exact Or.inr ⟨hy, hx⟩
  · exact Or.inl ⟨hx, hy⟩

theorem symCons_buildConstraints (d : V → List A) (edges : List (V × V)) :
    SymCons (buildConstraints d edges) := by
  intro a b x y ca cb hca hcb hmem
  have hca' : ca = mustDiffPairs (d a) (d b) ∨ ca = mustDiffPairs (d b) (d a) := by
    rcases pyOr_eq_some hca with h1 | h1
    · exact Or.inl (cget_buildConstraints h1).1
    · exact Or.inr (cget_buildConstraints h1).1
  have hcb' : cb = mustDiffPairs (d b) (d a) ∨ cb = mustDiffPairs (d a) (d b) := by
    rcases pyOr_eq_some hcb with h1 | h1
    · exact Or.inl (cget_buildConstraints h1).1
    · exact Or.inr (cget_buildConstraints h1).1
  have hm : (y, x) ∈ mustDiffPairs (d a) (d b) := by
    rcases hca' with rfl | rfl
    · exact mem_mustDiffPairs_swap hmem
    · exact mem_mustDiffPairs_comm (mem_mustDiffPairs_swap hmem)
  rcases hcb' with rfl | rfl
  · exact mem_mustDiffPairs_comm hm
  · exact hm

theorem revise_true_parts {cons : List ((V × V) × List (A × A))} {d : V → List A} {i j : V}
    (ht : (revise cons d i j).1 = true) :
    ∃ allowed, pyOr (cget cons (i, j)) (cget cons (j, i)) = some allowed ∧
      ((revise cons d i j).2 =
        fun v => if v = i then (d i).filter (fun x => hasSupport allowed (d j) x) else d v) := by
  unfold revise at *
  cases hp : pyOr (cget cons (i, j)) (cget cons (j, i)) with
  | none => simp [hp] at ht
  | some allowed =>
    refine ⟨allowed, rfl, ?_⟩
    simp only [hp] at ht ⊢
    by_cases he : ((d i).filter (fun x => !hasSupport allowed (d j) x)).isEmpty
    · simp [he] at ht
    · simp [he]

/-- After a revision of the arc `(i, j)`, revising it again removes nothing:
every surviving value kept its support (for a self-loop this uses the
symmetry of the stored sets). -/
theorem revise_fixpoint {cons : List ((V × V) × List (A × A))} {d : V → List A} {i j : V}
    (hsym : SymCons cons) (ht : (revise cons d i j).1 = true) :
    noRem cons ((revise cons d i j).2) i j := by
  rcases revise_true_parts ht with ⟨allowed, hp, hupd⟩
  rw [noRem_iff]
  intro allowed2 hp2 x hx
  have hae : allowed2 = allowed := by
    rw [hp] at hp2; injection hp2.symm
  rw [hae]
  rw [hupd] at hx
  simp only [if_pos rfl] at hx
  rcases List.mem_filter.mp hx with ⟨hxd, hxs⟩
  by_cases hji : j = i
  · subst hji
    rcases List.any_eq_true.mp hxs with ⟨y, hy, hxy⟩
    have hxy' : (x, y) ∈ allowed := of_decide_eq_true hxy
    have hyx : (y, x) ∈ allowed := hsym j j x y allowed allowed hp hp hxy'
    apply List.any_eq_true.mpr
    refine ⟨y, ?_, by simpa using hxy'⟩
    rw [hupd]
    simp only [if_pos rfl]
    apply List.mem_filter.mpr
    refine ⟨hy, ?_⟩
    apply List.any_eq_true.mpr
    exact ⟨x, hxd, by simpa using hyx⟩
  · have : (revise cons d i j).2 j = d j := by rw [hupd]; simp [hji]
    rw [this]
    exact hxs

/-- Shrinking the revised side of an arc cannot break the no-removal property
of the reverse arc: a lost support value was itself unsupported, so by
symmetry it never was the only support. -/
theorem noRem_rev_preserved {cons : List ((V × V) × List (A × A))} {d : V → List A} {i j : V}
    (hsym : SymCons cons) (ht : (revise cons d i j).1 = true) (hij : i ≠ j)
    (hji : noRem cons d j i) : noRem cons ((revise cons d i j).2) j i := by
  rcases revise_true_parts ht with ⟨allowed, hp, hupd⟩
  rw [noRem_iff] at hji ⊢
  intro allowed2 hp2 y hy
  have hji' : j ≠ i := fun h => hij h.symm
  have hyd : y ∈ d j := by
    rw [hupd] at hy
    simp only [if_neg hji'] at hy
    exact hy
  have hsy := hji allowed2 hp2 y hyd
  rcases List.any_eq_true.mp hsy with ⟨x, hxd, hyx⟩
  have hyx' : (y, x) ∈ allowed2 := of_decide_eq_true hyx
  have hxy : (x, y) ∈ allowed := hsym j i y x allowed2 allowed hp2 hp hyx'
  apply List.any_eq_true.mpr
  refine ⟨x, ?_, by simpa using hyx'⟩
  rw [hupd]
  simp only [if_pos rfl]
  apply List.mem_filter.mpr
  refine ⟨hxd, ?_⟩
  apply List.any_eq_true.mpr
  exact ⟨y, hyd, by simpa using hxy⟩

theorem mem_neighbors_step {cons0 : List V} {e : (V × V) × List (A × A)} {x y : V} :
    (y ∈ (let nbrs2 := if e.1.1 = x then cons0.insert e.1.2 else cons0
          if e.1.2 = x then nbrs2.insert e.1.1 else nbrs2)) ↔
      y ∈ cons0 ∨ (e.1.1 = x ∧ e.1.2 = y) ∨ (e.1.2 = x ∧ e.1.1 = y) := by
  show y ∈ (if e.1.2 = x then (if e.1.1 = x then cons0.insert e.1.2 else cons0).insert e.1.1
            else (if e.1.1 = x then cons0.insert e.1.2 else cons0)) ↔ _
  by_cases h1 : e.1.1 = x
  · by_cases h2 : e.1.2 = x
    · rw [if_pos h2, if_pos h1]
      simp only [List.mem_insert_iff]
      constructor
      · rintro (rfl | rfl | h)
        · exact Or.inr (Or.inr ⟨h2, rfl⟩)
        · exact Or.inr (Or.inl ⟨h1, rfl⟩)
        · exact Or.inl h
      · rintro (h | ⟨_, h⟩ | ⟨_, h⟩)
        · exact Or.inr (Or.inr h)
        · exact Or.inr (Or.inl h.symm)
        · exact Or.inl h.symm
    · rw [if_neg h2, if_pos h1]
      simp only [List.mem_insert_iff]
      constructor
      · rintro (rfl | h)
        · exact Or.inr (Or.inl ⟨h1, rfl⟩)
        · exact Or.inl h
      · rintro (h | ⟨_, h⟩ | ⟨h', _⟩)
        · exact Or.inr h
        · exact Or.inl h.symm
        · exact absurd h' h2
  · by_cases h2 : e.1.2 = x
    · rw [if_pos h2, if_neg h1]
      simp only [List.mem_insert_iff]
      constructor
      · rintro (rfl | h)
        · exact Or.inr (Or.inr ⟨h2, rfl⟩)
        · exact Or.inl h
      · rintro (h | ⟨h', _⟩ | ⟨_, h⟩)
        · exact Or.inr h
        · exact absurd h' h1
        · exact Or.inl h.symm
    · rw [if_neg h2, if_neg h1]
      constructor
      · exact fun h => Or.inl h
      · rintro (h | ⟨h', _⟩ | ⟨h', _⟩)
        · exact h
        · exact absurd h' h1
        · exact absurd h' h2

theorem mem_neighbors_aux (cons : List ((V × V) × List (A × A))) (acc : List V) (x y : V) :
    y ∈ cons.foldl (fun nbrs e =>
        let nbrs2 := if e.1.1 = x then nbrs.insert e.1.2 else nbrs
        if e.1.2 = x then nbrs2.insert e.1.1 else nbrs2) acc ↔
      y ∈ acc ∨ ∃ e ∈ cons, (e.1.1 = x ∧ e.1.2 = y) ∨ (e.1.2 = x ∧ e.1.1 = y) := by
  induction cons generalizing acc with
  | nil => simp
  | cons hd tl ih =>
    rw [List.foldl_cons, ih]
    constructor
    · rintro (hin | ⟨e, he, h⟩)
      · rcases mem_neighbors_step.mp hin with h | h | h
        · exact Or.inl h
        · exact Or.inr ⟨hd, List.mem_cons_self _ _, Or.inl h⟩
        · exact Or.inr ⟨hd, List.mem_cons_self _ _, Or.inr h⟩
      · exact Or.inr ⟨e, List.mem_cons_of_mem _ he, h⟩
    · rintro (h | ⟨e, he, h⟩)
      · exact Or.inl (mem_neighbors_step.mpr (Or.inl h))
      · rcases List.mem_cons.mp he with rfl | he'
        · exact Or.inl (mem_neighbors_step.mpr (Or.inr h))
        · exact Or.inr ⟨e, he', h⟩

theorem mem_neighbors {cons : List ((V × V) × List (A × A))} {x y : V} :
    y ∈ neighbors cons x ↔
      ∃ e ∈ cons, (e.1.1 = x ∧ e.1.2 = y) ∨ (e.1.2 = x ∧ e.1.1 = y) := by
  unfold neighbors
  rw [mem_neighbors_aux]
  simp

theorem cget_isSome_iff {cons : List ((V × V) × List (A × A))} {k : V × V} :
    (cget cons k).isSome = true ↔ ∃ e ∈ cons, e.1 = k := by
  constructor
  · intro h
    rcases Option.isSome_iff_exists.mp h with ⟨c, hc⟩
    exact ⟨(k, c), cget_eq_some_mem hc, rfl⟩
  · rintro ⟨e, he, rfl⟩
    exact cget_isSome_of_mem (k := e.1) (c := e.2) he

theorem keyed_iff {cons : List ((V × V) × List (A × A))} {a b : V} :
    keyed cons a b ↔ ∃ e ∈ cons, e.1 = (a, b) ∨ e.1 = (b, a) := by
  unfold keyed
  rw [cget_isSome_iff, cget_isSome_iff]
  constructor
  · rintro (⟨e, he, h⟩ | ⟨e, he, h⟩)
    · exact ⟨e, he, Or.inl h⟩
    · exact ⟨e, he, Or.inr h⟩
  · rintro ⟨e, he, h | h⟩
    · exact Or.inl ⟨e, he, h⟩
    · exact Or.inr ⟨e, he, h⟩

theorem keyed_symm {cons : List ((V × V) × List (A × A))} {a b : V}
    (h : keyed cons a b) : keyed cons b a := by
  rcases h with h | h
  · exact Or.inr h
  · exact Or.inl h

theorem keyed_mem_neighbors {cons : List ((V × V) × List (A × A))} {a b : V}
    (h : keyed cons a b) : a ∈ neighbors cons b := by
  rcases keyed_iff.mp h with ⟨e, he, h1 | h1⟩
  · exact mem_neighbors.mpr ⟨e, he, Or.inr ⟨by rw [h1], by rw [h1]⟩⟩
  · exact mem_neighbors.mpr ⟨e, he, Or.inl ⟨by rw [h1], by rw [h1]⟩⟩

theorem mem_initQueue_aux (cons : List ((V × V) × List (A × A))) (acc : List (V × V))
    (p : V × V) :
    p ∈ cons.foldl (fun q e => (e.1.2, e.1.1) :: (e.1.1, e.1.2) :: q) acc ↔
      p ∈ acc ∨ ∃ e ∈ cons, e.1 = p ∨ e.1 = (p.2, p.1) := by
  induction cons generalizing acc with
  | nil => simp
  | cons hd tl ih =>
    rw [List.foldl_cons, ih]
    constructor
    · rintro (hin | ⟨e, he, h⟩)
      · rcases List.mem_cons.mp hin with rfl | hin2
        · exact Or.inr ⟨hd, List.mem_cons_self _ _, Or.inr rfl⟩
        · rcases List.mem_cons.mp hin2 with rfl | hin3
          · exact Or.inr ⟨hd, List.mem_cons_self _ _, Or.inl rfl⟩
          · exact Or.inl hin3
      · exact Or.inr ⟨e, List.mem_cons_of_mem _ he, h⟩
    · rintro (h | ⟨e, he, h⟩)
      · exact Or.inl (List.mem_cons_of_mem _ (List.mem_cons_of_mem _ h))
      · rcases List.mem_cons.mp he with rfl | he'
        · rcases h with h | h
          · exact Or.inl (List.mem_cons.mpr (Or.inr (List.mem_cons.mpr (Or.inl (by
              rw [h])))))
          · refine Or.inl (List.mem_cons.mpr (Or.inl ?_))
            rw [h]
        · exact Or.inr ⟨e, he', h⟩

theorem mem_enqueue {l : List V} {rest : List (V × V)} {Xi : V} {p : V × V} :
    p ∈ l.foldl (fun acc Xk => (Xk, Xi) :: acc) rest ↔
      p ∈ rest ∨ ∃ Xk ∈ l, p = (Xk, Xi) := by
  induction l generalizing rest with
  | nil => simp
  | cons h t ih =>
    rw [List.foldl_cons, ih]
    constructor
    · rintro (hin | ⟨Xk, hXk, rfl⟩)
      · rcases List.mem_cons.mp hin with rfl | hin'
        · exact Or.inr ⟨h, List.mem_cons_self _ _, rfl⟩
        · exact Or.inl hin'
      · exact Or.inr ⟨Xk, List.mem_cons_of_mem _ hXk, rfl⟩
    · rintro (hin | ⟨Xk, hXk, rfl⟩)
      · exact Or.inl (List.mem_cons_of_mem _ hin)
      · rcases List.mem_cons.mp hXk with rfl | hXk'
        · exact Or.inl (List.mem_cons_self _ _)
        · exact Or.inr ⟨Xk, hXk', rfl⟩

/-- Main invariant of the worklist loop: if every keyed arc is either pending
in the queue or already revision-stable, and the loop returns `true`, then at
the final domains every keyed arc is revision-stable; moreover no nonempty
domain has been emptied. -/
theorem ac3Loop_true_inv {cons : List ((V × V) × List (A × A))} (hsym : SymCons cons) :
    ∀ N : Nat, ∀ d : V → List A, sizeOn (consVars cons) d ≤ N →
      ∀ q : List (V × V), ∀ d2 : V → List A, ac3Loop cons d q = (true, d2) →
        (∀ a b, keyed cons a b → (a, b) ∈ q ∨ noRem cons d a b) →
        (∀ a b, keyed cons a b → noRem cons d2 a b) ∧ (∀ v, d v ≠ [] → d2 v ≠ []) := by
  intro N
  induction N using Nat.strong_induction_on with
  | _ N ihN =>
    intro d hdN q
    induction q with
    | nil =>
      intro d2 hloop hinv
      rw [ac3Loop.eq_def] at hloop
      dsimp only at hloop
      injection hloop with h1 h2
      subst h2
      refine ⟨fun a b hk => ?_, fun v hv => hv⟩
      rcases hinv a b hk with h | h
      · simp at h
      · exact h
    | cons hd rest ihq =>
      obtain ⟨Xi, Xj⟩ := hd
      intro d2 hloop hinv
      rw [ac3Loop.eq_def] at hloop
      dsimp only at hloop
      by_cases hr : (revise cons d Xi Xj).1 = true
      · rw [dif_pos hr] at hloop
        by_cases hemp : ((revise cons d Xi Xj).2 Xi).isEmpty
        · rw [if_pos hemp] at hloop
          exact absurd (congrArg Prod.fst hloop) (by simp)
        · rw [if_neg hemp] at hloop
          rcases revise_true_parts hr with ⟨allowed, hp, hupd⟩
          have hsize : sizeOn (consVars cons) ((revise cons d Xi Xj).2) < N :=
            lt_of_lt_of_le (revise_true_size hr) hdN
          have hsub : ∀ v x, x ∈ (revise cons d Xi Xj).2 v → x ∈ d v := by
            intro v x hx
            rw [hupd] at hx
            by_cases hv : v = Xi
            · subst hv
              simp only [if_pos rfl] at hx
              exact (List.mem_filter.mp hx).1
            · simp only [if_neg hv] at hx
              exact hx
          have hinv2 : ∀ a b, keyed cons a b →
              (a, b) ∈ ((neighbors cons Xi).erase Xj).foldl
                  (fun acc Xk => (Xk, Xi) :: acc) rest ∨
                noRem cons ((revise cons d Xi Xj).2) a b := by
            intro a b hk
            rcases hinv a b hk with hq | hnr
            · rcases List.mem_cons.mp hq with heq | hq'
              · have ha : a = Xi := congrArg Prod.fst heq
                have hb : b = Xj := congrArg Prod.snd heq
                subst ha; subst hb
                exact Or.inr (revise_fixpoint hsym hr)
              · exact Or.inl (mem_enqueue.mpr (Or.inl hq'))
            · by_cases hbXi : b = Xi
              · obtain rfl : Xi = b := hbXi.symm
                by_cases haXj : a = Xj
                · obtain rfl : Xj = a := haXj.symm
                  by_cases hXiXj : Xi = Xj
                  · have hfix := revise_fixpoint hsym hr
                    rw [hXiXj] at hfix ⊢
                    exact Or.inr hfix
                  · exact Or.inr (noRem_rev_preserved hsym hr hXiXj hnr)
                · refine Or.inl (mem_enqueue.mpr (Or.inr ⟨a, ?_, rfl⟩))
                  exact (List.mem_erase_of_ne haXj).mpr (keyed_mem_neighbors hk)
              · refine Or.inr (noRem_mono (fun x hx => hsub a x hx) ?_ hnr)
                rw [hupd]
                exact if_neg hbXi
          have hres := ihN (sizeOn (consVars cons) ((revise cons d Xi Xj).2)) hsize
            ((revise cons d Xi Xj).2) le_rfl _ d2 hloop hinv2
          refine ⟨hres.1, fun v hv => hres.2 v ?_⟩
          by_cases hvXi : v = Xi
          · subst hvXi
            intro hnil
            exact hemp (by rw [hnil]; rfl)
          · simp only [hupd, if_neg hvXi]
            exact hv
      · rw [dif_neg hr] at hloop
        have hrf : (revise cons d Xi Xj).1 = false := by simpa using hr
        rw [revise_fst_false hrf] at hloop
        apply ihq d2 hloop
        intro a b hk
        rcases hinv a b hk with hq | hnr
        · rcases List.mem_cons.mp hq with heq | hq'
          · right
            have ha : a = Xi := congrArg Prod.fst heq
            have hb : b = Xj := congrArg Prod.snd heq
            subst ha; subst hb
            exact hrf
          · exact Or.inl hq'
        · exact Or.inr hnr

theorem mem_initQueue {cons : List ((V × V) × List (A × A))} {p : V × V} :
    p ∈ initQueue cons ↔ ∃ e ∈ cons, e.1 = p ∨ e.1 = (p.2, p.1) := by
  unfold initQueue
  rw [mem_initQueue_aux]
  simp

theorem ac_3_true_post (csp : CSPState V A) {d2 : V → List A}
    (hsym : SymCons csp.binary_constraints)
    (h : ac_3 csp = (true, d2)) :
    (∀ a b, keyed csp.binary_constraints a b → noRem csp.binary_constraints d2 a b) ∧
      (∀ v, csp.domains v ≠ [] → d2 v ≠ []) := by
  unfold ac_3 at h
  refine ac3Loop_true_inv hsym (sizeOn (consVars csp.binary_constraints) csp.domains)
    csp.domains le_rfl _ d2 h ?_
  intro a b hk
  refine Or.inl (mem_initQueue.mpr ?_)
  rcases keyed_iff.mp hk with ⟨e, he, h1 | h1⟩
  · exact ⟨e, he, Or.inl h1⟩
  · exact ⟨e, he, Or.inr h1⟩

/-- Once every queued arc is revision-stable, the loop drains the queue
without touching the domains and returns true. -/
theorem ac3Loop_noRem_all {cons : List ((V × V) × List (A × A))} :
    ∀ q : List (V × V), ∀ d : V → List A,
      (∀ p ∈ q, noRem cons d p.1 p.2) → ac3Loop cons d q = (true, d) := by
  intro q
  induction q with
  | nil =>
    intro d _
    rw [ac3Loop.eq_def]
  | cons hd rest ih =>
    obtain ⟨Xi, Xj⟩ := hd
    intro d hall
    rw [ac3Loop.eq_def]
    dsimp only
    have hr : (revise cons d Xi Xj).1 = false := hall (Xi, Xj) (List.mem_cons_self _ _)
    rw [dif_neg (by simp [hr])]
    rw [revise_fst_false hr]
    exact ih d (fun p hp => hall p (List.mem_cons_of_mem _ hp))

theorem mem_mustDiffPairs_swap_sides {du dv : List A} {p : A × A} :
    p ∈ mustDiffPairs du dv ↔ p ∈ mustDiffPairs dv du := by
  obtain ⟨x, y⟩ := p
  constructor
  · exact mem_mustDiffPairs_comm
  · exact mem_mustDiffPairs_comm

theorem mustDiffPairs_nil_swap {du dv : List A} (h : mustDiffPairs du dv = []) :
    mustDiffPairs dv du = [] := by
  rw [List.eq_nil_iff_forall_not_mem] at h ⊢
  intro p hp
  exact h p (mem_mustDiffPairs_swap_sides.mpr hp)

theorem pyOr_some_left {c : List (A × A)} {b : Option (List (A × A))} (hc : c ≠ []) :
    pyOr (some c) b = some c := by
  have hie : c.isEmpty = false := by
    cases c with
    | nil => exact absurd rfl hc
    | cons x t => rfl
  show (if c.isEmpty = true then b else some c) = some c
  rw [hie]
  simp

theorem pyOr_empty_left {b : Option (List (A × A))} :
    pyOr (some ([] : List (A × A))) b = b := by
  show (if ([] : List (A × A)).isEmpty = true then b else some ([] : List (A × A))) = b
  simp

theorem hasSupport_nil {dj : List A} {x : A} : hasSupport ([] : List (A × A)) dj x = false := by
  simp [hasSupport]

/-- C3 (amended: the spec's claim additionally needs every edge endpoint to
start with a nonempty domain): for a constructed CSP whose edge endpoints all
have nonempty initial domains, if `ac_3()` returns true then the final domains
are arc-consistent: every remaining value has a compatible value in the
remaining domain of each constrained neighbor, in both directions of every
stored constraint. -/
theorem C3_ac3_true_arc_consistent {vars0 : List V} {d0 d2 : V → List A}
    {edges : List (V × V)}
    (hne : ∀ e ∈ edges, d0 e.1 ≠ [] ∧ d0 e.2 ≠ [])
    (h : ac_3 ⟨vars0, d0, buildConstraints d0 edges⟩ = (true, d2)) :
    ∀ en ∈ buildConstraints d0 edges,
      (∀ x ∈ d2 en.1.1, ∃ y ∈ d2 en.1.2, (x, y) ∈ en.2) ∧
      (∀ y ∈ d2 en.1.2, ∃ x ∈ d2 en.1.1, (x, y) ∈ en.2) := by
  have hsym := symCons_buildConstraints d0 edges
  have hpost := ac_3_true_post ⟨vars0, d0, buildConstraints d0 edges⟩ hsym h
  intro en hen
  obtain ⟨⟨u, v⟩, c⟩ := en
  obtain ⟨hedge, hcval⟩ := mem_buildConstraints hen
  dsimp only at hedge hcval ⊢
  subst hcval
  have hcg : cget (buildConstraints d0 edges) (u, v) = some (mustDiffPairs (d0 u) (d0 v)) :=
    cget_buildConstraints_of_mem_edges hedge
  have hkuv : keyed (buildConstraints d0 edges) u v := Or.inl (by rw [hcg]; rfl)
  have hkvu : keyed (buildConstraints d0 edges) v u := keyed_symm hkuv
  have hnru := hpost.1 u v hkuv
  have hnrv := hpost.1 v u hkvu
  by_cases hc : mustDiffPairs (d0 u) (d0 v) = []
  · exfalso
    have hvu : pyOr (cget (buildConstraints d0 edges) (v, u))
        (cget (buildConstraints d0 edges) (u, v)) = some [] := by
      cases hgvu : cget (buildConstraints d0 edges) (v, u) with
      | none => rw [hcg, hc]; rfl
      | some c2 =>
        have hc2 : c2 = mustDiffPairs (d0 v) (d0 u) := (cget_buildConstraints hgvu).1
        have hc2nil : c2 = [] := by rw [hc2]; exact mustDiffPairs_nil_swap hc
        rw [hc2nil, pyOr_empty_left, hcg, hc]
    have hforall := noRem_iff.mp hnrv [] hvu
    have hd2v : d2 v = [] := by
      cases hd : d2 v with
      | nil => rfl
      | cons y t =>
        have := hforall y (by rw [hd]; exact List.mem_cons_self _ _)
        rw [hasSupport_nil] at this
        exact absurd this (by simp)
    exact (hpost.2 v (hne _ hedge).2) hd2v
  · have huv : pyOr (cget (buildConstraints d0 edges) (u, v))
        (cget (buildConstraints d0 edges) (v, u)) = some (mustDiffPairs (d0 u) (d0 v)) := by
      rw [hcg]; exact pyOr_some_left hc
    constructor
    · intro x hx
      have := noRem_iff.mp hnru _ huv x hx
      rcases List.any_eq_true.mp this with ⟨y, hy, hxy⟩
      exact ⟨y, hy, of_decide_eq_true hxy⟩
    · intro y hy
      have hvu : ∃ c2, pyOr (cget (buildConstraints d0 edges) (v, u))
          (cget (buildConstraints d0 edges) (u, v)) = some c2 ∧
          ∀ p : A × A, p ∈ c2 → p ∈ mustDiffPairs (d0 v) (d0 u) := by
        cases hgvu : cget (buildConstraints d0 edges) (v, u) with
        | none =>
          refine ⟨mustDiffPairs (d0 u) (d0 v), by rw [hcg]; rfl, ?_⟩
          intro p hp
          exact mem_mustDiffPairs_swap_sides.mp hp
        | some c2 =>
          have hc2 : c2 = mustDiffPairs (d0 v) (d0 u) := (cget_buildConstraints hgvu).1
          have hc2ne : c2 ≠ [] := by
            rw [hc2]
            intro hnil
            exact hc (mustDiffPairs_nil_swap hnil)
          refine ⟨c2, pyOr_some_left hc2ne, ?_⟩
          rw [hc2]
          exact fun p hp => hp
      rcases hvu with ⟨c2, hpy, hsub2⟩
      have := noRem_iff.mp hnrv _ hpy y hy
      rcases List.any_eq_true.mp this with ⟨x, hx, hyx⟩
      refine ⟨x, hx, ?_⟩
      have hmem : (y, x) ∈ mustDiffPairs (d0 v) (d0 u) := hsub2 _ (of_decide_eq_true hyx)
      exact mem_mustDiffPairs_swap_sides.mp (mem_mustDiffPairs_swap hmem)

/-- C6 (amended: conditional on the first run returning true): after a run of
`ac_3()` that returns true, a second run on the resulting domains (with the
same constraint store, which `__init__` built once) changes no domain and
returns true. -/
theorem C6_ac3_idempotent_after_true {vars0 : List V} {d0 d1 : V → List A}
    {edges : List (V × V)}
    (h1 : ac_3 ⟨vars0, d0, buildConstraints d0 edges⟩ = (true, d1)) :
    ac_3 ⟨vars0, d1, buildConstraints d0 edges⟩ = (true, d1) := by
  have hsym := symCons_buildConstraints d0 edges
  have hpost := ac_3_true_post ⟨vars0, d0, buildConstraints d0 edges⟩ hsym h1
  unfold ac_3
  dsimp only
  apply ac3Loop_noRem_all
  intro p hp
  rcases mem_initQueue.mp hp with ⟨e, he, h | h⟩
  · refine hpost.1 p.1 p.2 (keyed_iff.mpr ⟨e, he, Or.inl ?_⟩)
    rw [h]
  · exact hpost.1 p.1 p.2 (keyed_iff.mpr ⟨e, he, Or.inr h⟩)

/-- Assignment lookup, `assignment[v]` (`None` when `v not in assignment`).
The Python dict is modelled as an association list; `assignment[var] = val`
for a not-yet-present key prepends, `del assignment[var]` then restores the
previous list exactly. -/
def aget (asgn : List (V × A)) (v : V) : Option A :=
  (asgn.find? (fun p => decide (p.1 = v))).map (fun p => p.2)

/-- Embeds `v in assignment`. -/
def aHas (asgn : List (V × A)) (v : V) : Bool := (aget asgn v).isSome

/-- Embeds `_is_complete(assignment)`: all declared variables are assigned. -/
def isComplete (vars0 : List V) (asgn : List (V × A)) : Bool :=
  vars0.all (fun v => aHas asgn v)

/-- One lookup direction of `_is_consistent`: `allowed is not None and
(value pair) not in allowed` means violation, i.e. the check passes when the
key is absent or the pair is in the set. -/
def checkPair (o : Option (List (A × A))) (pr : A × A) : Bool :=
  match o with
  | some c => decide (pr ∈ c)
  | none => true

theorem checkPair_true_iff {o : Option (List (A × A))} {pr : A × A} :
    checkPair o pr = true ↔ ∀ c, o = some c → pr ∈ c := by
  cases o with
  | none => simp [checkPair]
  | some c => simp [checkPair]

/-- Embeds `_is_consistent(var, val, assignment)`: the value lies in the (current)
domain of `var`, and against every already-assigned `n` the pair passes both
stored directions of the constraint lookup. -/
def isConsistent (csp : CSPState V A) (var : V) (val : A) (asgn : List (V × A)) : Bool :=
  decide (val ∈ csp.domains var) &&
  asgn.all (fun p =>
    checkPair (cget csp.binary_constraints (var, p.1)) (val, p.2) &&
    checkPair (cget csp.binary_constraints (p.1, var)) (p.2, val))

/-- Number of declared variables not yet assigned (termination measure of the
search recursion). -/
def unassignedCount (vars0 : List V) (asgn : List (V × A)) : Nat :=
  (vars0.filter (fun v => !aHas asgn v)).length

theorem aget_cons {asgn : List (V × A)} {var w : V} {val : A} :
    aget ((var, val) :: asgn) w = if var = w then some val else aget asgn w := by
  unfold aget
  by_cases h : var = w
  · rw [List.find?_cons_of_pos _ (by simpa using h)]
    simp [h]
  · rw [List.find?_cons_of_neg _ (by simpa using h)]
    simp [h]

theorem aHas_cons {asgn : List (V × A)} {var w : V} {val : A} :
    aHas ((var, val) :: asgn) w = if var = w then true else aHas asgn w := by
  unfold aHas
  rw [aget_cons]
  by_cases h : var = w
  · simp [h]
  · simp [h]

theorem length_filter_le_of_imp {α : Type} {l : List α} {p q : α → Bool}
    (himp : ∀ x, q x = true → p x = true) :
    (l.filter q).length ≤ (l.filter p).length := by
  induction l with
  | nil => simp
  | cons hd tl ih =>
    by_cases hq : q hd = true
    · have hp := himp hd hq
      simp only [List.filter_cons, hq, hp, if_true]
      simpa using ih
    · have hq' : q hd = false := by simpa using hq
      simp only [List.filter_cons, hq']
      by_cases hp : p hd = true
      · simp only [hp, if_true]
        simp only [Bool.false_eq_true, if_false, List.length_cons]
        exact Nat.le_succ_of_le ih
      · have hp' : p hd = false := by simpa using hp
        simp only [hp', Bool.false_eq_true, if_false]
        exact ih

theorem length_filter_lt_of_imp {α : Type} {l : List α} {p q : α → Bool}
    (himp : ∀ x, q x = true → p x = true) {x : α} (hx : x ∈ l) (hpx : p x = true)
    (hqx : q x = false) : (l.filter q).length < (l.filter p).length := by
  induction l with
  | nil => simp at hx
  | cons hd tl ih =>
    rcases List.mem_cons.mp hx with rfl | hx'
    · simp only [List.filter_cons, hpx, hqx, if_true, Bool.false_eq_true, if_false,
        List.length_cons]
      exact Nat.lt_succ_of_le (length_filter_le_of_imp himp)
    · by_cases hq : q hd = true
      · have hp := himp hd hq
        simp only [List.filter_cons, hq, hp, if_true, List.length_cons]
        exact Nat.succ_lt_succ (ih hx')
      · have hq' : q hd = false := by simpa using hq
        simp only [List.filter_cons, hq', Bool.false_eq_true, if_false]
        by_cases hp : p hd = true
        · simp only [hp, if_true, List.length_cons]
          exact Nat.lt_succ_of_lt (ih hx')
        · have hp' : p hd = false := by simpa using hp
          simp only [hp', Bool.false_eq_true, if_false]
          exact ih hx'

theorem unassignedCount_extend_lt {vars0 : List V} {asgn : List (V × A)} {var : V} {val : A}
    (hmem : var ∈ vars0) (hun : aHas asgn var = false) :
    unassignedCount vars0 ((var, val) :: asgn) < unassignedCount vars0 asgn := by
  unfold unassignedCount
  apply length_filter_lt_of_imp (x := var)
  · intro w hw
    simp only [Bool.not_eq_true'] at hw ⊢
    rw [aHas_cons] at hw
    by_cases h : var = w
    · rw [if_pos h] at hw
      exact absurd hw (by simp)
    · rwa [if_neg h] at hw
  · exact hmem
  · simp [hun]
  · simp [aHas_cons]

mutual
/-- The recursive `backtrack(assignment)` helper inside
`backtracking_search`.  `none` is the no-solution marker (`None`).
`_select_unassigned` is the first declared variable not in the assignment
(`find?`); its `RuntimeError` branch is unreachable because the function is
only entered when the assignment is incomplete (see
`backtrack_raise_unreachable`), and is modelled by the `none` branch.  The
proof argument passed to `tryValues` has no computational content; it records
that the selected variable is declared and unassigned (used for
termination). -/
def backtrack (csp : CSPState V A) (asgn : List (V × A)) : Option (List (V × A)) :=
  if isComplete csp.vars asgn then some asgn
  else
    match hf : csp.vars.find? (fun v => !aHas asgn v) with
    | none => none
    | some var => tryValues csp var (csp.domains var) asgn
        ⟨List.mem_of_find?_eq_some hf, by simpa using List.find?_some hf⟩
termination_by (unassignedCount csp.vars asgn, 1, 0)
decreasing_by
  apply Prod.Lex.right
  apply Prod.Lex.left
  omega

/-- The `for val in self.domains[var]` loop of `backtrack`: try each value in
order; if consistent, extend the assignment and recurse; propagate a success;
undo the extension and continue on failure. -/
def tryValues (csp : CSPState V A) (var : V) (vals : List A) (asgn : List (V × A))
    (h : var ∈ csp.vars ∧ aHas asgn var = false) : Option (List (V × A)) :=
  match vals with
  | [] => none
  | val :: rest =>
    if isConsistent csp var val asgn then
      match backtrack csp ((var, val) :: asgn) with
      | some result => some result
      | none => tryValues csp var rest asgn h
    else tryValues csp var rest asgn h
termination_by (unassignedCount csp.vars asgn, 0, vals.length + 1)
decreasing_by
  · apply Prod.Lex.left
    exact unassignedCount_extend_lt h.1 h.2
  · apply Prod.Lex.right
    apply Prod.Lex.right
    simp only [List.length_cons]
    omega
  · apply Prod.Lex.right
    apply Prod.Lex.right
    simp only [List.length_cons]
    omega
end

/-- Embeds `CSP.backtracking_search()`: recursive backtracking from the empty
assignment. -/
def backtracking_search (csp : CSPState V A) : Option (List (V × A)) :=
  backtrack csp []

theorem backtrack_complete_eq {csp : CSPState V A} {asgn : List (V × A)}
    (hc : isComplete csp.vars asgn = true) : backtrack csp asgn = some asgn := by
  rw [backtrack.eq_def, hc]
  simp

theorem backtrack_incomplete_eq {csp : CSPState V A} {asgn : List (V × A)} (var : V)
    (hc : isComplete csp.vars asgn = false)
    (hf : csp.vars.find? (fun v => !aHas asgn v) = some var)
    (hvar : var ∈ csp.vars ∧ aHas asgn var = false) :
    backtrack csp asgn = tryValues csp var (csp.domains var) asgn hvar := by
  rw [backtrack.eq_def, hc]
  simp only [Bool.false_eq_true, if_false]
  split
  · next hf2 => rw [hf] at hf2; exact absurd hf2 (by simp)
  · next var2 hf2 =>
    rw [hf] at hf2
    injection hf2 with hv
    subst hv
    rfl

/-- The `RuntimeError` branch of `_select_unassigned` is unreachable: when the
assignment is incomplete, the scan always finds an unassigned variable. -/
theorem backtrack_raise_unreachable {vars0 : List V} {asgn : List (V × A)}
    (hc : isComplete vars0 asgn = false) :
    ∃ var, vars0.find? (fun v => !aHas asgn v) = some var := by
  unfold isComplete at hc
  rcases List.all_eq_false.mp hc with ⟨v, hv, hna⟩
  cases hfind : vars0.find? (fun v => !aHas asgn v) with
  | none =>
    rw [List.find?_eq_none] at hfind
    exact absurd (by simpa using hna) (by simpa using hfind v hv)
  | some var => exact ⟨var, rfl⟩

theorem tryValues_nil {csp : CSPState V A} {var : V} {asgn : List (V × A)}
    {h : var ∈ csp.vars ∧ aHas asgn var = false} :
    tryValues csp var [] asgn h = none := by
  rw [tryValues.eq_def]

theorem tryValues_cons_true {csp : CSPState V A} {var : V} {val : A} {rest : List A}
    {asgn : List (V × A)} {h : var ∈ csp.vars ∧ aHas asgn var = false}
    (hcons : isConsistent csp var val asgn = true) :
    tryValues csp var (val :: rest) asgn h =
      match backtrack csp ((var, val) :: asgn) with
      | some result => some result
      | none => tryValues csp var rest asgn h := by
  rw [tryValues.eq_def]
  dsimp only
  rw [hcons]
  simp

theorem tryValues_cons_false {csp : CSPState V A} {var : V} {val : A} {rest : List A}
    {asgn : List (V × A)} {h : var ∈ csp.vars ∧ aHas asgn var = false}
    (hcons : isConsistent csp var val asgn = false) :
    tryValues csp var (val :: rest) asgn h = tryValues csp var rest asgn h := by
  rw [tryValues.eq_def]
  dsimp only
  rw [hcons]
  simp

theorem isConsistent_true_iff {csp : CSPState V A} {var : V} {val : A}
    {asgn : List (V × A)} :
    isConsistent csp var val asgn = true ↔
      val ∈ csp.domains var ∧
      ∀ p ∈ asgn,
        (∀ c, cget csp.binary_constraints (var, p.1) = some c → (val, p.2) ∈ c) ∧
        (∀ c, cget csp.binary_constraints (p.1, var) = some c → (p.2, val) ∈ c) := by
  unfold isConsistent
  rw [Bool.and_eq_true, decide_eq_true_eq, List.all_eq_true]
  constructor
  · rintro ⟨hdom, hall⟩
    refine ⟨hdom, fun p hp => ?_⟩
    have := hall p hp
    rw [Bool.and_eq_true, checkPair_true_iff, checkPair_true_iff] at this
    exact this
  · rintro ⟨hdom, hall⟩
    refine ⟨hdom, fun p hp => ?_⟩
    rw [Bool.and_eq_true, checkPair_true_iff, checkPair_true_iff]
    exact hall p hp

theorem aget_mem {asgn : List (V × A)} {v : V} {x : A} (h : aget asgn v = some x) :
    (v, x) ∈ asgn := by
  unfold aget at h
  cases hf : asgn.find? (fun p => decide (p.1 = v)) with
  | none => rw [hf] at h; exact absurd h (by simp)
  | some e =>
    rw [hf] at h
    simp only [Option.map_some'] at h
    injection h with h2
    have he1 : e.1 = v := by simpa using List.find?_some hf
    have hmem : (e.1, e.2) ∈ asgn := List.mem_of_find?_eq_some hf
    rw [he1, h2] at hmem
    exact hmem

theorem aHas_false_iff {asgn : List (V × A)} {v : V} :
    aHas asgn v = false ↔ ∀ val : A, (v, val) ∉ asgn := by
  constructor
  · intro h val hmem
    unfold aHas aget at h
    cases hf : asgn.find? (fun p => decide (p.1 = v)) with
    | none =>
      rw [List.find?_eq_none] at hf
      exact absurd (by simp : decide (((v, val) : V × A).1 = v) = true)
        (by simpa using hf _ hmem)
    | some e => rw [hf] at h; simp at h
  · intro hall
    unfold aHas aget
    cases hf : asgn.find? (fun p => decide (p.1 = v)) with
    | none => rfl
    | some e =>
      exfalso
      have he1 : e.1 = v := by simpa using List.find?_some hf
      have hmem : (e.1, e.2) ∈ asgn := List.mem_of_find?_eq_some hf
      rw [he1] at hmem
      exact hall e.2 hmem

theorem aHas_true_exists {asgn : List (V × A)} {v : V} (h : aHas asgn v = true) :
    ∃ x, aget asgn v = some x := by
  unfold aHas at h
  exact Option.isSome_iff_exists.mp h

/-- The invariant `backtrack` maintains on partial assignments: keys are
distinct declared variables, values are in the (current) domains, and every
pair of distinct assigned variables passes both stored lookup directions. -/
def GoodAsgn (csp : CSPState V A) (asgn : List (V × A)) : Prop :=
  (asgn.map Prod.fst).Nodup ∧
  (∀ p ∈ asgn, p.1 ∈ csp.vars ∧ p.2 ∈ csp.domains p.1) ∧
  (∀ p ∈ asgn, ∀ q ∈ asgn, p.1 ≠ q.1 →
    ∀ c, cget csp.binary_constraints (p.1, q.1) = some c → (p.2, q.2) ∈ c)

theorem goodAsgn_extend {csp : CSPState V A} {asgn : List (V × A)} {var : V} {val : A}
    (hgood : GoodAsgn csp asgn) (hvar : var ∈ csp.vars) (hun : aHas asgn var = false)
    (hcons : isConsistent csp var val asgn = true) :
    GoodAsgn csp ((var, val) :: asgn) := by
  obtain ⟨hnd, hent, hpair⟩ := hgood
  rw [isConsistent_true_iff] at hcons
  obtain ⟨hdom, hall⟩ := hcons
  refine ⟨?_, ?_, ?_⟩
  · rw [List.map_cons, List.nodup_cons]
    refine ⟨?_, hnd⟩
    intro hmem
    rcases List.mem_map.mp hmem with ⟨p, hp, hp1⟩
    have : (var, p.2) ∈ asgn := by
      have : (p.1, p.2) ∈ asgn := hp
      rwa [hp1] at this
    exact aHas_false_iff.mp hun p.2 this
  · intro p hp
    rcases List.mem_cons.mp hp with rfl | hp'
    · exact ⟨hvar, hdom⟩
    · exact hent p hp'
  · intro p hp q hq hne c hc
    rcases List.mem_cons.mp hp with rfl | hp' <;> rcases List.mem_cons.mp hq with rfl | hq'
    · exact absurd rfl hne
    · exact (hall q hq').1 c hc
    · exact (hall p hp').2 c hc
    · exact hpair p hp' q hq' hne c hc

/-- Soundness of the recursive search: a returned assignment extends a good
partial assignment to a good and complete one. -/
theorem backtrack_sound (csp : CSPState V A) :
    ∀ N : Nat, ∀ asgn : List (V × A), unassignedCount csp.vars asgn ≤ N →
      GoodAsgn csp asgn →
      ∀ r, backtrack csp asgn = some r →
        GoodAsgn csp r ∧ isComplete csp.vars r = true := by
  intro N
  induction N using Nat.strong_induction_on with
  | _ N ihN =>
    intro asgn hcount hgood r hbt
    by_cases hc : isComplete csp.vars asgn = true
    · rw [backtrack_complete_eq hc] at hbt
      injection hbt with hr
      subst hr
      exact ⟨hgood, hc⟩
    · have hc' : isComplete csp.vars asgn = false := by simpa using hc
      rcases backtrack_raise_unreachable hc' with ⟨var, hf⟩
      have hvar : var ∈ csp.vars ∧ aHas asgn var = false :=
        ⟨List.mem_of_find?_eq_some hf, by simpa using List.find?_some hf⟩
      rw [backtrack_incomplete_eq var hc' hf hvar] at hbt
      have haux : ∀ vals : List A, ∀ r2, tryValues csp var vals asgn hvar = some r2 →
          GoodAsgn csp r2 ∧ isComplete csp.vars r2 = true := by
        intro vals
        induction vals with
        | nil =>
          intro r2 hr2
          rw [tryValues_nil] at hr2
          exact absurd hr2 (by simp)
        | cons val rest ihv =>
          intro r2 hr2
          by_cases hcons : isConsistent csp var val asgn = true
          · rw [tryValues_cons_true hcons] at hr2
            cases hbt2 : backtrack csp ((var, val) :: asgn) with
            | some r3 =>
              rw [hbt2] at hr2
              have hr3 : r3 = r2 := by injection hr2
              subst hr3
              have hgood2 : GoodAsgn csp ((var, val) :: asgn) :=
                goodAsgn_extend hgood hvar.1 hvar.2 hcons
              have hlt : unassignedCount csp.vars ((var, val) :: asgn) < N :=
                lt_of_lt_of_le (unassignedCount_extend_lt hvar.1 hvar.2) hcount
              exact ihN _ hlt _ le_rfl hgood2 r3 hbt2
            | none =>
              rw [hbt2] at hr2
              exact ihv r2 hr2
          · have hcons' : isConsistent csp var val asgn = false := by simpa using hcons
            rw [tryValues_cons_false hcons'] at hr2
            exact ihv r2 hr2
      exact haux _ r hbt

/-- C1 (amended: "constrained pair" restricted to pairs of two *distinct*
variables; a self-loop edge `(A, A)` is never checked by `_is_consistent`
because a variable is only compared against the *other* entries of the
assignment — see the counterexample theorem).  Any assignment returned by
`backtracking_search` on a constructed CSP assigns every declared variable a
value of its current domain, and for every stored constraint on two distinct
variables the assigned pair belongs to the stored compatibility set; in
particular, since the sets are built from must-differ edges, the two assigned
values differ. -/
theorem C1_solution_valid {vars0 : List V} {d0 d : V → List A} {edges : List (V × V)}
    {r : List (V × A)}
    (hr : backtracking_search ⟨vars0, d, buildConstraints d0 edges⟩ = some r) :
    (∀ v ∈ vars0, ∃ x, aget r v = some x ∧ x ∈ d v) ∧
    (∀ en ∈ buildConstraints d0 edges, en.1.1 ≠ en.1.2 →
      ∀ x y, aget r en.1.1 = some x → aget r en.1.2 = some y →
        (x, y) ∈ en.2 ∧ x ≠ y) := by
  unfold backtracking_search at hr
  have hsound := backtrack_sound ⟨vars0, d, buildConstraints d0 edges⟩
    (unassignedCount vars0 []) [] le_rfl
    ⟨by simp, by simp, by simp⟩ r hr
  obtain ⟨⟨hnd, hent, hpair⟩, hcomp⟩ := hsound
  constructor
  · intro v hv
    have hhas : aHas r v = true := by
      have := List.all_eq_true.mp hcomp v hv
      simpa using this
    rcases aHas_true_exists hhas with ⟨x, hx⟩
    exact ⟨x, hx, (hent (v, x) (aget_mem hx)).2⟩
  · intro en hen hne x y hx hy
    obtain ⟨hedge, hval⟩ := mem_buildConstraints hen
    have hmx : (en.1.1, x) ∈ r := aget_mem hx
    have hmy : (en.1.2, y) ∈ r := aget_mem hy
    have hcg : cget (buildConstraints d0 edges) (en.1.1, en.1.2) =
        some (mustDiffPairs (d0 en.1.1) (d0 en.1.2)) := by
      have : ((en.1.1, en.1.2) : V × V) ∈ edges := by
        have h1 : en.1 = (en.1.1, en.1.2) := rfl
        rw [← h1]
        exact hedge
      exact cget_buildConstraints_of_mem_edges this
    have hmem : (x, y) ∈ mustDiffPairs (d0 en.1.1) (d0 en.1.2) :=
      hpair (en.1.1, x) hmx (en.1.2, y) hmy hne _ hcg
    refine ⟨?_, (mem_mustDiffPairs.mp hmem).1⟩
    rw [hval]
    exact hmem

/-- A complete constraint-satisfying assignment: every declared variable gets
a value of its (current) domain, and every stored constraint is satisfied by
the assigned values. -/
def Solves (csp : CSPState V A) (asgn : List (V × A)) : Prop :=
  (∀ v ∈ csp.vars, ∃ x, aget asgn v = some x ∧ x ∈ csp.domains v) ∧
  (∀ en ∈ csp.binary_constraints, ∀ x y,
    aget asgn en.1.1 = some x → aget asgn en.1.2 = some y → (x, y) ∈ en.2)

/-- Helper for the unsatisfiable case, in the total-domain view: on a CSP
whose edges join two *distinct* variables and which has no complete
constraint-satisfying assignment, the pure search returns `none`.  (The
claim-level statement additionally accounts for the `KeyError` path of the
source, see `C4_unsat_returns_none`.) -/
theorem search_total_unsat_none {vars0 : List V} {d0 d : V → List A} {edges : List (V × V)}
    (hnoself : ∀ e ∈ edges, e.1 ≠ e.2)
    (hunsat : ¬ ∃ asgn, Solves ⟨vars0, d, buildConstraints d0 edges⟩ asgn) :
    backtracking_search ⟨vars0, d, buildConstraints d0 edges⟩ = none := by
  cases hbt : backtracking_search ⟨vars0, d, buildConstraints d0 edges⟩ with
  | none => rfl
  | some r =>
    exfalso
    apply hunsat
    unfold backtracking_search at hbt
    have hsound := backtrack_sound ⟨vars0, d, buildConstraints d0 edges⟩
      (unassignedCount vars0 []) [] le_rfl
      ⟨by simp, by simp, by simp⟩ r hbt
    obtain ⟨⟨hnd, hent, hpair⟩, hcomp⟩ := hsound
    refine ⟨r, ?_, ?_⟩
    · intro v hv
      have hhas : aHas r v = true := by
        have := List.all_eq_true.mp hcomp v hv
        simpa using this
      rcases aHas_true_exists hhas with ⟨x, hx⟩
      exact ⟨x, hx, (hent (v, x) (aget_mem hx)).2⟩
    · intro en hen x y hx hy
      obtain ⟨hedge, hval⟩ := mem_buildConstraints hen
      have hne : en.1.1 ≠ en.1.2 := hnoself en.1 hedge
      have hcg : cget (buildConstraints d0 edges) (en.1.1, en.1.2) =
          some (mustDiffPairs (d0 en.1.1) (d0 en.1.2)) := by
        have : ((en.1.1, en.1.2) : V × V) ∈ edges := by
          have h1 : en.1 = (en.1.1, en.1.2) := rfl
          rw [← h1]
          exact hedge
        exact cget_buildConstraints_of_mem_edges this
      have hmem : (x, y) ∈ mustDiffPairs (d0 en.1.1) (d0 en.1.2) :=
        hpair (en.1.1, x) (aget_mem hx) (en.1.2, y) (aget_mem hy) hne _ hcg
      rw [hval]
      exact hmem

/-- State-passing form of `backtracking_search`, making the frame condition
explicit: the method reads `self.variables`, `self.domains` and
`self.binary_constraints` but its body contains no assignment to any `self`
attribute — the only object mutated during the search is the local
`assignment` dict — so the translation returns the instance state unchanged
alongside the result. -/
def backtracking_searchS (csp : CSPState V A) :
    Option (List (V × A)) × CSPState V A :=
  (backtrack csp [], csp)

/-- Dict lookup in the construction-time domains dict (`self.domains[v]`
returns this value or raises `KeyError` when absent). -/
def dlookup (doms : List (V × List A)) (v : V) : Option (List A) :=
  (doms.find? (fun p => decide (p.1 = v))).map (fun p => p.2)


mutual
/-- Dict-accurate variant of `backtrack`: `self.domains` is kept as the
dict given to the constructor, and the read `self.domains[var]` at the head
of the value loop (line 230 of `csp.py`) raises `KeyError` when the selected
variable has no entry — modelled by `Except.error ()`.  `Except.ok none` is
the plain-return no-solution marker.  `_is_consistent` re-reads
`self.domains[var]` for the same key, which is present whenever it is
called, so its total `getD []` view used inside `isConsistent` is exact
there. -/
def backtrackE (vars0 : List V) (doms : List (V × List A))
    (cons : List ((V × V) × List (A × A))) (asgn : List (V × A)) :
    Except Unit (Option (List (V × A))) :=
  if isComplete vars0 asgn then Except.ok (some asgn)
  else
    match hf : vars0.find? (fun v => !aHas asgn v) with
    | none => Except.ok none
    | some var =>
      match dlookup doms var with
      | none => Except.error ()
      | some vals => tryValuesE vars0 doms cons var vals asgn
          ⟨List.mem_of_find?_eq_some hf, by simpa using List.find?_some hf⟩
termination_by (unassignedCount vars0 asgn, 1, 0)
decreasing_by
  apply Prod.Lex.right
  apply Prod.Lex.left
  omega

/-- Dict-accurate value loop, mirroring `tryValues`. -/
def tryValuesE (vars0 : List V) (doms : List (V × List A))
    (cons : List ((V × V) × List (A × A))) (var : V) (vals : List A)
    (asgn : List (V × A)) (h : var ∈ vars0 ∧ aHas asgn var = false) :
    Except Unit (Option (List (V × A))) :=
  match vals with
  | [] => Except.ok none
  | val :: rest =>
    if isConsistent ⟨vars0, fun v => (dlookup doms v).getD [], cons⟩ var val asgn then
      match backtrackE vars0 doms cons ((var, val) :: asgn) with
      | Except.ok (some result) => Except.ok (some result)
      | Except.ok none => tryValuesE vars0 doms cons var rest asgn h
      | Except.error e => Except.error e
    else tryValuesE vars0 doms cons var rest asgn h
termination_by (unassignedCount vars0 asgn, 0, vals.length + 1)
decreasing_by
  · apply Prod.Lex.left
    exact unassignedCount_extend_lt h.1 h.2
  · apply Prod.Lex.right
    apply Prod.Lex.right
    simp only [List.length_cons]
    omega
  · apply Prod.Lex.right
    apply Prod.Lex.right
    simp only [List.length_cons]
    omega
end

/-- Dict-accurate `backtracking_search()`: `Except.error ()` is the
`KeyError` raised when the search selects a declared variable with no domain
entry; `Except.ok` wraps the plain-return results of the source. -/
def backtracking_searchE (vars0 : List V) (doms : List (V × List A))
    (cons : List ((V × V) × List (A × A))) : Except Unit (Option (List (V × A))) :=
  backtrackE vars0 doms cons []

theorem backtrackE_complete_eq {vars0 : List V} {doms : List (V × List A)}
    {cons : List ((V × V) × List (A × A))} {asgn : List (V × A)}
    (hc : isComplete vars0 asgn = true) :
    backtrackE vars0 doms cons asgn = Except.ok (some asgn) := by
  rw [backtrackE.eq_def, hc]
  simp

theorem backtrackE_incomplete_eq {vars0 : List V} {doms : List (V × List A)}
    {cons : List ((V × V) × List (A × A))} {asgn : List (V × A)} (var : V)
    (vals : List A) (hc : isComplete vars0 asgn = false)
    (hf : vars0.find? (fun v => !aHas asgn v) = some var)
    (hdl : dlookup doms var = some vals)
    (hvar : var ∈ vars0 ∧ aHas asgn var = false) :
    backtrackE vars0 doms cons asgn = tryValuesE vars0 doms cons var vals asgn hvar := by
  rw [backtrackE.eq_def, hc]
  simp only [Bool.false_eq_true, if_false]
  split
  · next hf2 => rw [hf] at hf2; exact absurd hf2 (by simp)
  · next var2 hf2 =>
    rw [hf] at hf2
    injection hf2 with hv
    subst hv
    rw [hdl]

theorem backtrackE_keyerror_eq {vars0 : List V} {doms : List (V × List A)}
    {cons : List ((V × V) × List (A × A))} {asgn : List (V × A)} (var : V)
    (hc : isComplete vars0 asgn = false)
    (hf : vars0.find? (fun v => !aHas asgn v) = some var)
    (hdl : dlookup doms var = none) :
    backtrackE vars0 doms cons asgn = Except.error () := by
  rw [backtrackE.eq_def, hc]
  simp only [Bool.false_eq_true, if_false]
  split
  · next hf2 => rw [hf] at hf2; exact absurd hf2 (by simp)
  · next var2 hf2 =>
    rw [hf] at hf2
    injection hf2 with hv
    subst hv
    rw [hdl]

theorem tryValuesE_nil {vars0 : List V} {doms : List (V × List A)}
    {cons : List ((V × V) × List (A × A))} {var : V} {asgn : List (V × A)}
    {h : var ∈ vars0 ∧ aHas asgn var = false} :
    tryValuesE vars0 doms cons var [] asgn h = Except.ok none := by
  rw [tryValuesE.eq_def]

theorem tryValuesE_cons_true {vars0 : List V} {doms : List (V × List A)}
    {cons : List ((V × V) × List (A × A))} {var : V} {val : A} {rest : List A}
    {asgn : List (V × A)} {h : var ∈ vars0 ∧ aHas asgn var = false}
    (hcons : isConsistent ⟨vars0, fun v => (dlookup doms v).getD [], cons⟩
      var val asgn = true) :
    tryValuesE vars0 doms cons var (val :: rest) asgn h =
      match backtrackE vars0 doms cons ((var, val) :: asgn) with
      | Except.ok (some result) => Except.ok (some result)
      | Except.ok none => tryValuesE vars0 doms cons var rest asgn h
      | Except.error e => Except.error e := by
  rw [tryValuesE.eq_def]
  dsimp only
  rw [hcons]
  simp

theorem tryValuesE_cons_false {vars0 : List V} {doms : List (V × List A)}
    {cons : List ((V × V) × List (A × A))} {var : V} {val : A} {rest : List A}
    {asgn : List (V × A)} {h : var ∈ vars0 ∧ aHas asgn var = false}
    (hcons : isConsistent ⟨vars0, fun v => (dlookup doms v).getD [], cons⟩
      var val asgn = false) :
    tryValuesE vars0 doms cons var (val :: rest) asgn h =
      tryValuesE vars0 doms cons var rest asgn h := by
  rw [tryValuesE.eq_def]
  dsimp only
  rw [hcons]
  simp

/-- When every declared variable has a domain entry, the dict-accurate
search never raises and agrees with the total-domain model: the `KeyError`
collapse of `backtrack` is exact on this input class. -/
theorem backtrackE_eq_backtrack (vars0 : List V) (doms : List (V × List A))
    (cons : List ((V × V) × List (A × A)))
    (hdom : ∀ v ∈ vars0, (dlookup doms v).isSome = true) :
    ∀ N : Nat, ∀ asgn : List (V × A), unassignedCount vars0 asgn ≤ N →
      backtrackE vars0 doms cons asgn =
        Except.ok (backtrack ⟨vars0, fun v => (dlookup doms v).getD [], cons⟩ asgn) := by
  intro N
  induction N using Nat.strong_induction_on with
  | _ N ihN =>
    intro asgn hcount
    by_cases hc : isComplete vars0 asgn = true
    · rw [backtrackE_complete_eq hc, backtrack_complete_eq hc]
    · have hc' : isComplete vars0 asgn = false := by simpa using hc
      rcases backtrack_raise_unreachable hc' with ⟨var, hf⟩
      have hvar : var ∈ vars0 ∧ aHas asgn var = false :=
        ⟨List.mem_of_find?_eq_some hf, by simpa using List.find?_some hf⟩
      rcases Option.isSome_iff_exists.mp (hdom var hvar.1) with ⟨vals, hdl⟩
      rw [backtrackE_incomplete_eq var vals hc' hf hdl hvar]
      rw [backtrack_incomplete_eq var hc' hf hvar]
      have hdv : (⟨vars0, fun v => (dlookup doms v).getD [], cons⟩ :
          CSPState V A).domains var = vals := by
        show (dlookup doms var).getD [] = vals
        rw [hdl]
        rfl
      rw [hdv]
      have haux : ∀ vs : List A,
          tryValuesE vars0 doms cons var vs asgn hvar =
            Except.ok (tryValues ⟨vars0, fun v => (dlookup doms v).getD [], cons⟩
              var vs asgn hvar) := by
        intro vs
        induction vs with
        | nil => rw [tryValuesE_nil, tryValues_nil]
        | cons val rest ihv =>
          by_cases hcons : isConsistent ⟨vars0, fun v => (dlookup doms v).getD [], cons⟩
              var val asgn = true
          · rw [tryValuesE_cons_true hcons, tryValues_cons_true hcons]
            have hrec := ihN _ (lt_of_lt_of_le (unassignedCount_extend_lt hvar.1 hvar.2)
              hcount) ((var, val) :: asgn) le_rfl
            rw [hrec]
            cases backtrack ⟨vars0, fun v => (dlookup doms v).getD [], cons⟩
                ((var, val) :: asgn) with
            | some r => rfl
            | none =>
              dsimp only
              exact ihv
          · have hcons' : isConsistent ⟨vars0, fun v => (dlookup doms v).getD [], cons⟩
                var val asgn = false := by simpa using hcons
            rw [tryValuesE_cons_false hcons', tryValues_cons_false hcons']
            exact ihv
      exact haux vals

/-- Embeds `alldiff(variables)`: the comprehension
`[(variables[i], variables[j]) for i in range(len(variables) - 1)
for j in range(i + 1, len(variables))]` pairs each element with every later
element, in order.  Peeling the first element, that is exactly: the head
paired with each tail element, followed by the pairs of the tail.  A pure
function (no state is read or written). -/
def alldiff : List V → List (V × V)
  | [] => []
  | x :: xs => xs.map (fun y => (x, y)) ++ alldiff xs

theorem alldiff_mem_components {l : List V} {p : V × V} (hp : p ∈ alldiff l) :
    p.1 ∈ l ∧ p.2 ∈ l := by
  induction l with
  | nil => simp [alldiff] at hp
  | cons x xs ih =>
    rcases List.mem_append.mp hp with hm | hm
    · rcases List.mem_map.mp hm with ⟨y, hy, heq⟩
      subst heq
      exact ⟨List.mem_cons_self _ _, List.mem_cons_of_mem _ hy⟩
    · obtain ⟨h1, h2⟩ := ih hm
      exact ⟨List.mem_cons_of_mem _ h1, List.mem_cons_of_mem _ h2⟩

theorem count_map_pair {xs : List V} {x b : V} :
    ((xs.map (fun y => (x, y))).count (x, b)) = xs.count b := by
  induction xs with
  | nil => rfl
  | cons h t ih =>
    rw [List.map_cons, List.count_cons, List.count_cons, ih]
    by_cases hb : h = b
    · subst hb; simp
    · simp [hb, fun hc : ((x, h) : V × V) = (x, b) => hb (by injection hc with h1 h2)]

theorem count_map_pair_ne {xs : List V} {x a b : V} (hax : a ≠ x) :
    ((xs.map (fun y => (x, y))).count (a, b)) = 0 := by
  rw [List.count_eq_zero]
  intro hmem
  rcases List.mem_map.mp hmem with ⟨y, hy, heq⟩
  apply hax
  have := congrArg Prod.fst heq
  simpa using this.symm

theorem count_alldiff_zero_fst {l : List V} {a b : V} (ha : a ∉ l) :
    (alldiff l).count (a, b) = 0 := by
  rw [List.count_eq_zero]
  intro hmem
  exact ha (alldiff_mem_components hmem).1

theorem count_alldiff_zero_snd {l : List V} {a b : V} (hb : b ∉ l) :
    (alldiff l).count (a, b) = 0 := by
  rw [List.count_eq_zero]
  intro hmem
  exact hb (alldiff_mem_components hmem).2

/-- C9: for a duplicate-free variable list, `alldiff` returns exactly the
2-combinations: every produced pair consists of two distinct members, and
every unordered pair of distinct members appears exactly once (in exactly one
of its two orientations).  `alldiff` is a pure helper: it only builds its
result from its argument. -/
theorem C9_alldiff_two_combinations {l : List V} (hnd : l.Nodup) :
    (∀ p ∈ alldiff l, p.1 ∈ l ∧ p.2 ∈ l ∧ p.1 ≠ p.2) ∧
    (∀ a b : V, a ∈ l → b ∈ l → a ≠ b →
      (alldiff l).count (a, b) + (alldiff l).count (b, a) = 1) := by
  induction l with
  | nil => exact ⟨by simp [alldiff], by simp⟩
  | cons x xs ih =>
    obtain ⟨hx, hndxs⟩ := List.nodup_cons.mp hnd
    obtain ⟨ih1, ih2⟩ := ih hndxs
    constructor
    · intro p hp
      rcases List.mem_append.mp hp with hm | hm
      · rcases List.mem_map.mp hm with ⟨y, hy, heq⟩
        subst heq
        refine ⟨List.mem_cons_self _ _, List.mem_cons_of_mem _ hy, ?_⟩
        intro hxy
        have hxy2 : x = y := hxy
        exact hx (by rw [hxy2]; exact hy)
      · obtain ⟨h1, h2, h3⟩ := ih1 p hm
        exact ⟨List.mem_cons_of_mem _ h1, List.mem_cons_of_mem _ h2, h3⟩
    · intro a b ha hb hab
      rw [show alldiff (x :: xs) = xs.map (fun y => (x, y)) ++ alldiff xs from rfl]
      rw [List.count_append, List.count_append]
      rcases List.mem_cons.mp ha with rfl | ha'
      · have hb' : b ∈ xs := by
          rcases List.mem_cons.mp hb with rfl | hb'
          · exact absurd rfl hab
          · exact hb'
        rw [count_map_pair, count_map_pair_ne (fun h => hab h.symm),
          count_alldiff_zero_fst hx, count_alldiff_zero_snd hx,
          List.count_eq_one_of_mem hndxs hb']
      · rcases List.mem_cons.mp hb with rfl | hb'
        · rw [count_map_pair, count_map_pair_ne hab,
            count_alldiff_zero_snd hx, count_alldiff_zero_fst hx,
            List.count_eq_one_of_mem hndxs ha']
        · rw [count_map_pair_ne (fun h => hx (by rw [← h]; exact ha')),
            count_map_pair_ne (fun h => hx (by rw [← h]; exact hb'))]
          have := ih2 a b ha' hb' hab
          omega

/-- One iteration of the constraint-building loop of `CSP.__init__` for one
edge: read `self.domains[variable1]` (KeyError → `none`); if that set is
empty the nested loops run zero times, so `self.domains[variable2]` is never
read and the entry keeps the empty set written just before the loops;
otherwise read `self.domains[variable2]` (KeyError → `none`) and store the
must-differ pairs. -/
def initStep (doms : List (V × List A)) (acc : Option (List ((V × V) × List (A × A))))
    (e : V × V) : Option (List ((V × V) × List (A × A))) :=
  acc.bind (fun cs =>
    match dlookup doms e.1 with
    | none => none
    | some du =>
      if du.isEmpty then some (cs ++ [((e.1, e.2), ([] : List (A × A)))])
      else
        match dlookup doms e.2 with
        | none => none
        | some dv => some (cs ++ [((e.1, e.2), mustDiffPairs du dv)]))

/-- Embeds `CSP.__init__(variables, domains, edges)` with the domains dict as
passed by the caller.  `none` models the constructor raising `KeyError`.
On success the instance stores the variable list unchanged, the domains
(as a total function; keys absent from the dict are never consulted on the
success path and would crash any later use in the source), and the built
constraint dict.  No validation against the declared variable list and no
check that every declared variable has a domain entry is performed. -/
def CSP_init (variables0 : List V) (doms : List (V × List A)) (edges : List (V × V)) :
    Option (CSPState V A) :=
  (edges.foldl (initStep doms) (some [])).map
    (fun cs => ⟨variables0, fun v => (dlookup doms v).getD [], cs⟩)

/-- The exact condition under which construction raises: some edge has a
first endpoint with no domain entry, or a first endpoint with a nonempty
domain entry and a second endpoint with no domain entry. -/
def initFails (doms : List (V × List A)) (edges : List (V × V)) : Bool :=
  edges.any (fun e =>
    match dlookup doms e.1 with
    | none => true
    | some du => !du.isEmpty && (dlookup doms e.2).isNone)

theorem initStep_none {doms : List (V × List A)} {e : V × V} :
    initStep doms none e = none := rfl

theorem init_foldl_none {doms : List (V × List A)} (edges : List (V × V)) :
    edges.foldl (initStep doms) none = none := by
  induction edges with
  | nil => rfl
  | cons e rest ih => rw [List.foldl_cons, initStep_none, ih]

theorem init_foldl_isNone (doms : List (V × List A)) :
    ∀ (edges : List (V × V)) (cs : List ((V × V) × List (A × A))),
      (edges.foldl (initStep doms) (some cs)).isNone = initFails doms edges := by
  intro edges
  induction edges with
  | nil => intro cs; rfl
  | cons e rest ih =>
    intro cs
    rw [List.foldl_cons]
    unfold initFails
    rw [List.any_cons]
    cases h1 : dlookup doms e.1 with
    | none =>
      have hstep : initStep doms (some cs) e = none := by
        unfold initStep
        rw [Option.some_bind, h1]
      rw [hstep, init_foldl_none]
      simp
    | some du =>
      by_cases hdu : du.isEmpty
      · have hstep : initStep doms (some cs) e =
            some (cs ++ [((e.1, e.2), ([] : List (A × A)))]) := by
          unfold initStep
          rw [Option.some_bind, h1]
          dsimp only
          rw [if_pos hdu]
        rw [hstep, ih]
        unfold initFails
        simp [h1, hdu]
      · have hdu' : du.isEmpty = false := by simpa using hdu
        cases h2 : dlookup doms e.2 with
        | none =>
          have hstep : initStep doms (some cs) e = none := by
            unfold initStep
            rw [Option.some_bind, h1]
            dsimp only
            rw [if_neg hdu, h2]
          rw [hstep, init_foldl_none]
          simp [h1, hdu', h2]
        | some dv =>
          have hstep : initStep doms (some cs) e =
              some (cs ++ [((e.1, e.2), mustDiffPairs du dv)]) := by
            unfold initStep
            rw [Option.some_bind, h1]
            dsimp only
            rw [if_neg hdu, h2]
          rw [hstep, ih]
          unfold initFails
          simp [h1, hdu', h2]

/-- C5 (amended): construction fails (raises) exactly when some edge has a
first endpoint with no domain entry, or a first endpoint with a nonempty
domain and a second endpoint with no domain entry.  In particular the
constructor does NOT validate edges against the declared variable list, and
does NOT require a domain entry for every declared variable (see the
counterexample theorem). -/
theorem C5_init_failure_characterized (variables0 : List V) (doms : List (V × List A))
    (edges : List (V × V)) :
    (CSP_init variables0 doms edges : Option (CSPState V A)).isNone =
      initFails doms edges := by
  unfold CSP_init
  cases h : edges.foldl (initStep doms) (some []) with
  | none =>
    have := init_foldl_isNone doms edges []
    rw [h] at this
    exact this
  | some cs =>
    have := init_foldl_isNone doms edges []
    rw [h] at this
    exact this

theorem init_foldl_some {doms : List (V × List A)} :
    ∀ (edges : List (V × V)) (cs0 cs : List ((V × V) × List (A × A))),
      edges.foldl (initStep doms) (some cs0) = some cs →
      cs = cs0 ++ buildConstraints (fun v => (dlookup doms v).getD []) edges := by
  intro edges
  induction edges with
  | nil =>
    intro cs0 cs h
    rw [List.foldl_nil] at h
    injection h with h
    rw [← h]
    simp [buildConstraints]
  | cons e rest ih =>
    intro cs0 cs h
    rw [List.foldl_cons] at h
    cases h1 : dlookup doms e.1 with
    | none =>
      have hstep : initStep doms (some cs0) e = none := by
        unfold initStep
        rw [Option.some_bind, h1]
      rw [hstep, init_foldl_none] at h
      exact absurd h (by simp)
    | some du =>
      by_cases hdu : du.isEmpty
      · have hstep : initStep doms (some cs0) e =
            some (cs0 ++ [((e.1, e.2), ([] : List (A × A)))]) := by
          unfold initStep
          rw [Option.some_bind, h1]
          dsimp only
          rw [if_pos hdu]
        rw [hstep] at h
        rw [ih _ _ h]
        have hdunil : du = [] := List.isEmpty_iff.mp hdu
        have hu : (dlookup doms e.1).getD [] = du := by rw [h1]; rfl
        have hentry : buildConstraints (fun v => (dlookup doms v).getD []) (e :: rest) =
            ((e.1, e.2), ([] : List (A × A))) ::
              buildConstraints (fun v => (dlookup doms v).getD []) rest := by
          unfold buildConstraints
          rw [List.map_cons]
          congr 1
          show ((e.1, e.2), mustDiffPairs ((dlookup doms e.1).getD [])
            ((dlookup doms e.2).getD [])) = ((e.1, e.2), ([] : List (A × A)))
          rw [hu, hdunil]
          rfl
        rw [hentry]
        simp
      · cases h2 : dlookup doms e.2 with
        | none =>
          have hstep : initStep doms (some cs0) e = none := by
            unfold initStep
            rw [Option.some_bind, h1]
            dsimp only
            rw [if_neg hdu, h2]
          rw [hstep, init_foldl_none] at h
          exact absurd h (by simp)
        | some dv =>
          have hstep : initStep doms (some cs0) e =
              some (cs0 ++ [((e.1, e.2), mustDiffPairs du dv)]) := by
            unfold initStep
            rw [Option.some_bind, h1]
            dsimp only
            rw [if_neg hdu, h2]
          rw [hstep] at h
          rw [ih _ _ h]
          have hu : (dlookup doms e.1).getD [] = du := by rw [h1]; rfl
          have hv : (dlookup doms e.2).getD [] = dv := by rw [h2]; rfl
          have hentry : buildConstraints (fun v => (dlookup doms v).getD []) (e :: rest) =
              ((e.1, e.2), mustDiffPairs du dv) ::
                buildConstraints (fun v => (dlookup doms v).getD []) rest := by
            unfold buildConstraints
            rw [List.map_cons]
            congr 1
            show ((e.1, e.2), mustDiffPairs ((dlookup doms e.1).getD [])
              ((dlookup doms e.2).getD [])) = ((e.1, e.2), mustDiffPairs du dv)
            rw [hu, hv]
          rw [hentry]
          simp

/-- What a successful construction yields: the declared variables unchanged,
the domains dict in its total `getD []` view, and exactly the constraint
store `buildConstraints` would build from that view (when an edge's first
domain is empty the stored set is empty either way, so the second endpoint,
which the source never reads in that case, does not matter). -/
theorem CSP_init_some {variables0 : List V} {doms : List (V × List A)}
    {edges : List (V × V)} {csp : CSPState V A}
    (h : CSP_init variables0 doms edges = some csp) :
    csp = ⟨variables0, fun v => (dlookup doms v).getD [],
      buildConstraints (fun v => (dlookup doms v).getD []) edges⟩ := by
  unfold CSP_init at h
  cases hf : edges.foldl (initStep doms) (some []) with
  | none =>
    rw [hf] at h
    exact absurd h (by simp)
  | some cs =>
    rw [hf] at h
    simp only [Option.map_some'] at h
    have hcs := init_foldl_some edges [] cs hf
    rw [List.nil_append] at hcs
    injection h with h2
    rw [← h2, hcs]

/-- C4: for every successfully constructed CSP in which every declared
variable has a domain entry and every edge joins two DISTINCT variables, if
no complete constraint-satisfying assignment exists then
`backtracking_search()` returns the no-solution marker `None`; moreover the
dict-accurate model returns `Except.ok none`, i.e. the result comes by plain
return — neither the `RuntimeError` of `_select_unassigned` nor the
`KeyError` of the `self.domains[var]` read at line 230 is raised.  (Both
side conditions are necessary: a self-loop edge defeats the claim because
`_is_consistent` never compares a variable with itself, see
`C4_counterexample`, and a declared variable without a domain entry makes
the search raise `KeyError` instead of returning `None`, see
`backtrackE_keyerror_eq`.) -/
theorem C4_unsat_returns_none {variables0 : List V} {doms : List (V × List A)}
    {edges : List (V × V)} {csp : CSPState V A}
    (hinit : CSP_init variables0 doms edges = some csp)
    (hdom : ∀ v ∈ variables0, (dlookup doms v).isSome = true)
    (hnoself : ∀ e ∈ edges, e.1 ≠ e.2)
    (hunsat : ¬ ∃ asgn, Solves csp asgn) :
    backtracking_search csp = none ∧
    backtracking_searchE variables0 doms csp.binary_constraints = Except.ok none := by
  have hcsp := CSP_init_some hinit
  subst hcsp
  have hpure : backtracking_search ⟨variables0, fun v => (dlookup doms v).getD [],
      buildConstraints (fun v => (dlookup doms v).getD []) edges⟩ = none :=
    search_total_unsat_none hnoself hunsat
  refine ⟨hpure, ?_⟩
  show backtracking_searchE variables0 doms
    (buildConstraints (fun v => (dlookup doms v).getD []) edges) = Except.ok none
  unfold backtracking_searchE
  rw [backtrackE_eq_backtrack variables0 doms
    (buildConstraints (fun v => (dlookup doms v).getD []) edges) hdom
    (unassignedCount variables0 []) [] le_rfl]
  unfold backtracking_search at hpure
  rw [hpure]

theorem revise_snd_subset (cons : List ((V × V) × List (A × A))) (d : V → List A)
    (Xi Xj v : V) :
    (∀ x ∈ (revise cons d Xi Xj).2 v, x ∈ d v) ∧
    ((revise cons d Xi Xj).2 v).length ≤ (d v).length := by
  by_cases hr : (revise cons d Xi Xj).1 = true
  · rcases revise_true_parts hr with ⟨allowed, hp, hupd⟩
    have hv2 : (revise cons d Xi Xj).2 v =
        if v = Xi then (d Xi).filter (fun x => hasSupport allowed (d Xj) x) else d v := by
      rw [hupd]
    rw [hv2]
    by_cases hv : v = Xi
    · rw [if_pos hv]
      subst hv
      exact ⟨fun x hx => (List.mem_filter.mp hx).1, List.length_filter_le _ _⟩
    · rw [if_neg hv]
      exact ⟨fun x hx => hx, le_rfl⟩
  · have hrf : (revise cons d Xi Xj).1 = false := by simpa using hr
    rw [revise_fst_false hrf]
    exact ⟨fun x hx => hx, le_rfl⟩

theorem ac3Loop_domains_shrink (cons : List ((V × V) × List (A × A))) :
    ∀ N : Nat, ∀ d : V → List A, sizeOn (consVars cons) d ≤ N →
      ∀ q : List (V × V), ∀ v : V,
        (∀ x ∈ (ac3Loop cons d q).2 v, x ∈ d v) ∧
        ((ac3Loop cons d q).2 v).length ≤ (d v).length := by
  intro N
  induction N using Nat.strong_induction_on with
  | _ N ihN =>
    intro d hdN q
    induction q with
    | nil =>
      intro v
      rw [ac3Loop.eq_def]
      exact ⟨fun x hx => hx, le_rfl⟩
    | cons hd rest ihq =>
      obtain ⟨Xi, Xj⟩ := hd
      intro v
      rw [ac3Loop.eq_def]
      dsimp only
      by_cases hr : (revise cons d Xi Xj).1 = true
      · rw [dif_pos hr]
        have hstep := revise_snd_subset cons d Xi Xj v
        by_cases hemp : ((revise cons d Xi Xj).2 Xi).isEmpty
        · rw [if_pos hemp]
          exact hstep
        · rw [if_neg hemp]
          have hsize : sizeOn (consVars cons) ((revise cons d Xi Xj).2) < N :=
            lt_of_lt_of_le (revise_true_size hr) hdN
          have hrec := ihN _ hsize ((revise cons d Xi Xj).2) le_rfl
            (((neighbors cons Xi).erase Xj).foldl (fun acc Xk => (Xk, Xi) :: acc) rest) v
          exact ⟨fun x hx => hstep.1 x (hrec.1 x hx), le_trans hrec.2 hstep.2⟩
      · rw [dif_neg hr]
        have hrf : (revise cons d Xi Xj).1 = false := by simpa using hr
        rw [revise_fst_false hrf]
        exact ihq v

/-- C8: domains only ever shrink.  One `revise` call and a whole `ac_3()` run
keep every variable's domain a sub-collection of what it was (no value is
ever added, and no domain's size increases), and `backtracking_search`
leaves the instance state — domains included — untouched (its only mutation
is the local assignment dict, see `backtracking_searchS`). -/
theorem C8_domains_never_grow (csp : CSPState V A) (Xi Xj v : V) :
    (∀ x ∈ (revise csp.binary_constraints csp.domains Xi Xj).2 v, x ∈ csp.domains v) ∧
    ((revise csp.binary_constraints csp.domains Xi Xj).2 v).length ≤
      (csp.domains v).length ∧
    (∀ x ∈ (ac_3 csp).2 v, x ∈ csp.domains v) ∧
    ((ac_3 csp).2 v).length ≤ (csp.domains v).length ∧
    (backtracking_searchS csp).2.domains = csp.domains := by
  have h1 := revise_snd_subset csp.binary_constraints csp.domains Xi Xj v
  have h2 := ac3Loop_domains_shrink csp.binary_constraints
    (sizeOn (consVars csp.binary_constraints) csp.domains) csp.domains le_rfl
    (initQueue csp.binary_constraints) v
  exact ⟨h1.1, h1.2, h2.1, h2.2, rfl⟩

/-- C10: `backtracking_search` never modifies the CSP instance: in the
state-passing translation (which is exact because the method body contains no
assignment to `self.variables`, `self.domains` or `self.binary_constraints`;
the search mutates only its local `assignment` dict, undone on backtrack) the
instance comes back identical, and the returned value is that of the pure
search. -/
theorem C10_search_frame (csp : CSPState V A) :
    (backtracking_searchS csp).2.vars = csp.vars ∧
    (backtracking_searchS csp).2.domains = csp.domains ∧
    (backtracking_searchS csp).2.binary_constraints = csp.binary_constraints ∧
    (backtracking_searchS csp).1 = backtracking_search csp :=
  ⟨rfl, rfl, rfl, rfl⟩

/-- The spec's intentionally unsatisfiable instance: two variables, domain
containing exactly the value 1 each, one must-differ edge between them. -/
def dTwoOnes : Nat → List Nat := fun v => if v = 0 then [1] else if v = 1 then [1] else []

def cspTwoOnes : CSPState Nat Nat := ⟨[0, 1], dTwoOnes, buildConstraints dTwoOnes [(0, 1)]⟩

/-- C2: on the CSP with two variables of domain containing exactly 1 and a
must-differ edge between them, `ac_3()` returns false (the constraint set
built for the edge is empty, and processing the reverse arc empties the
second variable's domain). -/
theorem C2_ac3_false_on_two_ones : (ac_3 cspTwoOnes).1 = false := by
  simp +decide [ac_3, cspTwoOnes, dTwoOnes, ac3Loop.eq_def, initQueue, buildConstraints,
    mustDiffPairs, revise, pyOr, cget, hasSupport, neighbors]

def dC1x : Nat → List Nat := fun v => if v = 0 then [7] else []

/-- A CSP with one self-loop edge: `_is_consistent` never compares a variable
with itself, so the (empty) compatibility set stored for the key (0, 0) is
ignored by the search. -/
def cspC1x : CSPState Nat Nat := ⟨[0], dC1x, buildConstraints dC1x [(0, 0)]⟩

/-- C1 counterexample to the claim as stated: the search returns an
assignment, (0, 0) is a stored constrained pair whose compatibility set is
empty, yet the pair of assigned values (7, 7) is not in that set (and does
not differ). -/
theorem C1_counterexample :
    backtracking_search cspC1x = some [(0, 7)] ∧
    (((0, 0) : Nat × Nat), ([] : List (Nat × Nat))) ∈ cspC1x.binary_constraints ∧
    aget [((0 : Nat), (7 : Nat))] 0 = some 7 ∧
    ((7, 7) : Nat × Nat) ∉ ([] : List (Nat × Nat)) := by
  refine ⟨?_, by decide, by decide, by decide⟩
  rw [backtracking_search]
  rw [backtrack_incomplete_eq 0 (by decide) (by decide) (by decide)]
  rw [show cspC1x.domains 0 = [7] from rfl]
  rw [tryValues_cons_true (by decide)]
  rw [backtrack_complete_eq (by decide)]

def dW1 : Nat → List Nat := fun v => if v = 0 then [1, 2] else if v = 1 then [1, 2] else []

def cspW1 : CSPState Nat Nat := ⟨[0, 1], dW1, buildConstraints dW1 [(0, 1)]⟩

theorem C1_witness :
    backtracking_search cspW1 = some [(1, 2), (0, 1)] ∧
    ((∀ v ∈ [0, 1], ∃ x, aget [((1 : Nat), (2 : Nat)), (0, 1)] v = some x ∧ x ∈ dW1 v) ∧
     (∀ en ∈ buildConstraints dW1 [(0, 1)], en.1.1 ≠ en.1.2 →
       ∀ x y, aget [((1 : Nat), (2 : Nat)), (0, 1)] en.1.1 = some x →
         aget [((1 : Nat), (2 : Nat)), (0, 1)] en.1.2 = some y →
         (x, y) ∈ en.2 ∧ x ≠ y)) := by
  have hev : backtracking_search cspW1 = some [(1, 2), (0, 1)] := by
    rw [backtracking_search]
    rw [backtrack_incomplete_eq 0 (by decide) (by decide) (by decide)]
    rw [show cspW1.domains 0 = [1, 2] from rfl]
    rw [tryValues_cons_true (by decide)]
    rw [backtrack_incomplete_eq 1 (by decide) (by decide) (by decide)]
    rw [show cspW1.domains 1 = [1, 2] from rfl]
    rw [tryValues_cons_false (by decide)]
    rw [tryValues_cons_true (by decide)]
    rw [backtrack_complete_eq (by decide)]
  exact ⟨hev, C1_solution_valid hev⟩

def dC3x : Nat → List Nat := fun v => if v = 0 then [1] else []

/-- Variable 1 starts with an empty domain; the edge's compatibility set is
then empty, the key-order arc is silently skipped by the truthiness of
`get((Xi,Xj)) or get((Xj,Xi))`, and `ac_3()` returns true although value 1
of variable 0 has no support in the (empty) domain of its neighbor. -/
def cspC3x : CSPState Nat Nat := ⟨[0, 1], dC3x, buildConstraints dC3x [(0, 1)]⟩

/-- C3 counterexample to the claim as stated (for every CSP): `ac_3()`
returns true on `cspC3x`, the pair (0, 1) is constrained (with empty
compatibility set), value 1 remains in the domain of variable 0, yet the
domain of the neighbor 1 is empty, so 1 has no compatible value there. -/
theorem C3_counterexample :
    (ac_3 cspC3x).1 = true ∧
    (((0, 1) : Nat × Nat), ([] : List (Nat × Nat))) ∈ cspC3x.binary_constraints ∧
    1 ∈ (ac_3 cspC3x).2 0 ∧
    (ac_3 cspC3x).2 1 = [] := by
  refine ⟨?_, by decide, ?_, ?_⟩ <;>
  simp +decide [ac_3, cspC3x, dC3x, ac3Loop.eq_def, initQueue, buildConstraints,
    mustDiffPairs, revise, pyOr, cget, hasSupport, neighbors]

def dW3 : Nat → List Nat := fun v => if v = 0 then [1, 2] else if v = 1 then [1, 2] else []

def cspW3 : CSPState Nat Nat := ⟨[0, 1], dW3, buildConstraints dW3 [(0, 1)]⟩

theorem C3_witness :
    (∀ e ∈ [((0 : Nat), (1 : Nat))], dW3 e.1 ≠ [] ∧ dW3 e.2 ≠ []) ∧
    (ac_3 cspW3).1 = true ∧
    (∀ en ∈ buildConstraints dW3 [(0, 1)],
      (∀ x ∈ (ac_3 cspW3).2 en.1.1, ∃ y ∈ (ac_3 cspW3).2 en.1.2, (x, y) ∈ en.2) ∧
      (∀ y ∈ (ac_3 cspW3).2 en.1.2, ∃ x ∈ (ac_3 cspW3).2 en.1.1, (x, y) ∈ en.2)) := by
  have hfst : (ac_3 cspW3).1 = true := by
    simp +decide [ac_3, cspW3, dW3, ac3Loop.eq_def, initQueue, buildConstraints,
      mustDiffPairs, revise, pyOr, cget, hasSupport, neighbors]
  have h : ac_3 cspW3 = (true, (ac_3 cspW3).2) := by rw [← hfst]
  exact ⟨by decide, hfst, C3_ac3_true_arc_consistent (by decide) h⟩

def dC4x : Nat → List Nat := fun v => if v = 0 then [1] else []

def cspC4x : CSPState Nat Nat := ⟨[0], dC4x, buildConstraints dC4x [(0, 0)]⟩

/-- C4 counterexample to the claim as stated: `cspC4x` (one variable with a
self-loop must-differ edge, whose compatibility set is empty) has no complete
constraint-satisfying assignment, yet `backtracking_search` does not return
the no-solution marker — it returns the assignment 0 ↦ 1. -/
theorem C4_counterexample :
    (¬ ∃ asgn, Solves cspC4x asgn) ∧
    backtracking_search cspC4x = some [(0, 1)] := by
  constructor
  · rintro ⟨asgn, hcov, hcons⟩
    rcases hcov 0 (by decide) with ⟨x, hx, hxd⟩
    have hmem : (((0, 0) : Nat × Nat), ([] : List (Nat × Nat))) ∈
        cspC4x.binary_constraints := by decide
    have := hcons _ hmem x x hx hx
    exact absurd this (List.not_mem_nil _)
  · rw [backtracking_search]
    rw [backtrack_incomplete_eq 0 (by decide) (by decide) (by decide)]
    rw [show cspC4x.domains 0 = [1] from rfl]
    rw [tryValues_cons_true (by decide)]
    rw [backtrack_complete_eq (by decide)]

def dW4doms : List (Nat × List Nat) := [(0, [1]), (1, [1])]

def cspW4 : CSPState Nat Nat :=
  ⟨[0, 1], fun v => (dlookup dW4doms v).getD [],
   buildConstraints (fun v => (dlookup dW4doms v).getD []) [(0, 1)]⟩

theorem C4_witness :
    CSP_init [0, 1] dW4doms [(0, 1)] = some cspW4 ∧
    (∀ v ∈ [(0 : Nat), 1], (dlookup dW4doms v).isSome = true) ∧
    (∀ e ∈ [((0 : Nat), (1 : Nat))], e.1 ≠ e.2) ∧
    (¬ ∃ asgn, Solves cspW4 asgn) ∧
    backtracking_search cspW4 = none ∧
    backtracking_searchE [0, 1] dW4doms cspW4.binary_constraints = Except.ok none := by
  have hinit : CSP_init [0, 1] dW4doms [(0, 1)] = some cspW4 := rfl
  have hunsat : ¬ ∃ asgn, Solves cspW4 asgn := by
    rintro ⟨asgn, hcov, hcons⟩
    rcases hcov 0 (by decide) with ⟨x, hx, hxd⟩
    rcases hcov 1 (by decide) with ⟨y, hy, hyd⟩
    have hd0 : cspW4.domains 0 = [1] := rfl
    have hd1 : cspW4.domains 1 = [1] := rfl
    rw [hd0] at hxd
    rw [hd1] at hyd
    simp at hxd hyd
    subst hxd; subst hyd
    have hmem : (((0, 1) : Nat × Nat), ([] : List (Nat × Nat))) ∈
        cspW4.binary_constraints := by decide
    have := hcons _ hmem 1 1 hx hy
    exact absurd this (List.not_mem_nil _)
  have h := C4_unsat_returns_none hinit (by decide) (by decide) hunsat
  exact ⟨hinit, by decide, by decide, hunsat, h.1, h.2⟩

def dC6x : Nat → List Nat :=
  fun v => if v = 0 then [1] else if v = 1 then [1] else if v = 2 then [1] else
           if v = 3 then [1, 2] else []

/-- The first `ac_3()` run pops the arcs of the later-declared edge (0, 1)
first, empties the domain of variable 1 and aborts with false, leaving the
prunable arc (3, 2) unprocessed; a second run then still prunes value 1 from
the domain of variable 3. -/
def cspC6x : CSPState Nat Nat := ⟨[0, 1, 2, 3], dC6x, buildConstraints dC6x [(2, 3), (0, 1)]⟩

/-- C6 counterexample to the claim as stated (for every CSP): running
`ac_3()` twice does not leave the domains identical to running it once — the
first run returns false with the domain of variable 3 still the full [1, 2],
and the second run prunes it to [2]. -/
theorem C6_counterexample :
    (ac_3 cspC6x).1 = false ∧
    (ac_3 cspC6x).2 3 = [1, 2] ∧
    (ac_3 ⟨[0, 1, 2, 3], (ac_3 cspC6x).2, cspC6x.binary_constraints⟩).2 3 = [2] ∧
    ((1 : Nat) ∈ (ac_3 cspC6x).2 3 ∧
      (1 : Nat) ∉ (ac_3 ⟨[0, 1, 2, 3], (ac_3 cspC6x).2, cspC6x.binary_constraints⟩).2 3) := by
  refine ⟨?_, ?_, ?_, ?_, ?_⟩ <;>
  simp +decide [ac_3, cspC6x, dC6x, ac3Loop.eq_def, initQueue, buildConstraints,
    mustDiffPairs, revise, pyOr, cget, hasSupport, neighbors]

def dW6 : Nat → List Nat :=
  fun v => if v = 0 then [1, 2, 3] else if v = 1 then [1, 2, 3] else []

def cspW6 : CSPState Nat Nat := ⟨[0, 1], dW6, buildConstraints dW6 [(0, 1)]⟩

theorem C6_witness :
    (ac_3 cspW6).1 = true ∧
    ac_3 ⟨[0, 1], (ac_3 cspW6).2, buildConstraints dW6 [(0, 1)]⟩ =
      (true, (ac_3 cspW6).2) := by
  have hfst : (ac_3 cspW6).1 = true := by
    simp +decide [ac_3, cspW6, dW6, ac3Loop.eq_def, initQueue, buildConstraints,
      mustDiffPairs, revise, pyOr, cget, hasSupport, neighbors]
  have h : ac_3 cspW6 = (true, (ac_3 cspW6).2) := by rw [← hfst]
  exact ⟨hfst, C6_ac3_idempotent_after_true h⟩

/-- C5 counterexample to the claim as stated: construction succeeds although
the edge references variable 1, absent from the declared variable list [0]
(first conjunct pair), and construction also succeeds although declared
variable 1 has no domain entry (second conjunct pair). -/
theorem C5_counterexample :
    ((CSP_init [0] [(0, [1]), (1, [1])] [(0, 1)] : Option (CSPState Nat Nat)).isSome =
      true ∧ (1 : Nat) ∉ [0]) ∧
    ((CSP_init [0, 1] [(0, [1])] ([] : List (Nat × Nat)) :
      Option (CSPState Nat Nat)).isSome = true ∧
      dlookup [((0 : Nat), [(1 : Nat)])] 1 = none) := by
  refine ⟨⟨?_, by decide⟩, ⟨?_, by decide⟩⟩ <;> rfl

def d7 : Nat → List Nat := fun v => if v = 0 then [1] else if v = 1 then [2] else []

/-- C7 counterexample to invariant I1 as stated: under the stored key (0, 1)
the compatibility set contains the pair (2, 1), whose components are drawn
from the domains in *reversed* order relative to the key — 2 is not a value
of variable 0 at all. -/
theorem C7_counterexample :
    cget (buildConstraints d7 [(0, 1)]) (0, 1) = some [(1, 2), (2, 1)] ∧
    ((2, 1) : Nat × Nat) ∈ [((1 : Nat), (2 : Nat)), (2, 1)] ∧
    (2 : Nat) ∉ d7 0 := by
  refine ⟨by rfl, by decide, by decide⟩

/-- C7 (amended): each stored compatibility set holds every compatible value
pair in BOTH orders: for any stored entry with key (A, B), a pair (x, y) is
in the set exactly when x and y are two different values drawn one from each
of the construction-time domains of A and B, in either order. -/
theorem C7_stored_sets_symmetric {d : V → List A} {edges : List (V × V)}
    {en : (V × V) × List (A × A)} (hen : en ∈ buildConstraints d edges) :
    ∀ x y : A, ((x, y) ∈ en.2 ↔
      x ≠ y ∧ ((x ∈ d en.1.1 ∧ y ∈ d en.1.2) ∨ (y ∈ d en.1.1 ∧ x ∈ d en.1.2))) := by
  intro x y
  rw [(mem_buildConstraints hen).2]
  exact mem_mustDiffPairs

theorem C7_witness :
    ((((0, 1) : Nat × Nat), [((1 : Nat), (2 : Nat)), (2, 1)]) ∈
      buildConstraints d7 [(0, 1)]) ∧
    (((2, 1) : Nat × Nat) ∈ [((1 : Nat), (2 : Nat)), (2, 1)] ↔
      (2 : Nat) ≠ 1 ∧ ((2 ∈ d7 0 ∧ 1 ∈ d7 1) ∨ (1 ∈ d7 0 ∧ 2 ∈ d7 1))) := by
  have hmem : ((((0, 1) : Nat × Nat), [((1 : Nat), (2 : Nat)), (2, 1)]) ∈
      buildConstraints d7 [(0, 1)]) := by decide
  exact ⟨hmem, C7_stored_sets_symmetric hmem 2 1⟩

def dW8 : Nat → List Nat := fun v => if v = 0 then [1, 2] else if v = 1 then [1, 2] else []

def cspW8 : CSPState Nat Nat := ⟨[0, 1], dW8, buildConstraints dW8 [(0, 1)]⟩

theorem C8_witness :
    (2 : Nat) ∈ (ac_3 cspW8).2 0 ∧ (2 : Nat) ∈ cspW8.domains 0 := by
  have hmem : (2 : Nat) ∈ (ac_3 cspW8).2 0 := by
    simp +decide [ac_3, cspW8, dW8, ac3Loop.eq_def, initQueue, buildConstraints,
      mustDiffPairs, revise, pyOr, cget, hasSupport, neighbors]
  exact ⟨hmem, (C8_domains_never_grow cspW8 0 1 0).2.2.1 2 hmem⟩

theorem C9_witness :
    (["A", "B", "C"] : List String).Nodup ∧
    alldiff ["A", "B", "C"] = [("A", "B"), ("A", "C"), ("B", "C")] ∧
    ((∀ p ∈ alldiff ["A", "B", "C"],
        p.1 ∈ ["A", "B", "C"] ∧ p.2 ∈ ["A", "B", "C"] ∧ p.1 ≠ p.2) ∧
     (∀ a b : String, a ∈ ["A", "B", "C"] → b ∈ ["A", "B", "C"] → a ≠ b →
        (alldiff ["A", "B", "C"]).count (a, b) + (alldiff ["A", "B", "C"]).count (b, a) = 1)) := by
  refine ⟨by decide, by rfl, C9_alldiff_two_combinations (by decide)⟩
